import Mathlib

/-!
Verification of the span-redaction / reconstruction engine of the
chatbot backend.  The engine under study is `anonymize_text` in
`anonymization.py` (lines 138-176) together with the recontextualization
loop of `process_request` in `app.py` (lines 183-188).

Texts are modelled as `List Char` (Python `str` under the
character-index convention, which is what Python slicing uses).  The
external detector (`analyzer.analyze`, a presidio call, out of scope per
the specification) is modelled as an explicit `analysis` argument: a
list of typed, scored spans, exactly the contract the code consumes.

The reconstruction side models `re.sub` in full: each per-entry pass
parses its replacement string as a `re.sub` replacement template
(`pyReSub`), so originals containing backslashes follow Python's
escape-processing semantics, including the `re.error` paths (modelled
by `Option`).  The cleanup regex `<\w+_\d+>` is modelled with ASCII
character classes; since Python's classes are Unicode-aware, general
theorems about the cleanup pass carry an `asciiOnly` side condition on
the scanned text, on which the two classifications coincide.
-/

set_option maxRecDepth 10000

/-- The ASCII restriction of the regex class `\w`.  Python's `\w` on a
`str` is Unicode-aware; this model agrees with it exactly on ASCII
characters, so every general theorem about the cleanup regex below
carries an `asciiOnly` side condition on the text being scanned (a
Unicode-aware scan of an ASCII string coincides with the ASCII
classification, because every match lies inside the scanned text). -/
def isWordChar (c : Char) : Bool := c.isAlphanum || c = '_'

/-- The decimal digit character for `k < 10`, as produced by Python
string formatting of a counter. -/
def digitChar (k : Nat) : Char := Char.ofNat (48 + k)

/-- Decimal representation of a natural number, big-endian, as written
by the f-string `f"<{t}_{n}>"`.  Fuel-indexed so that the definition is
structurally recursive (the fuel `n + 1` always suffices). -/
def natCharsAux : Nat → Nat → List Char
  | 0, n => [digitChar (n % 10)]
  | fuel + 1, n =>
    if n < 10 then [digitChar n]
    else natCharsAux fuel (n / 10) ++ [digitChar (n % 10)]

/-- Decimal representation of a natural number as a character list. -/
def natChars (n : Nat) : List Char := natCharsAux n n

/-- A detection result: the contract consumed from the external
analyzer, `{entity_type, start, end, score}` (`anonymization.py`
lines 141-146; the score is used only by the analyzer's own threshold
filter, which is external). -/
structure Span where
  entity_type : List Char
  start : Nat
  «end» : Nat
  score : ℚ
deriving DecidableEq, Repr

/-- One record of `updated_analysis` (`anonymization.py` lines 164-168):
`{"type": ..., "original": ..., "anonymized": ...}`. -/
structure MappingEntry where
  type : List Char
  original : List Char
  anonymized : List Char
deriving DecidableEq, Repr

/-- Python slicing `text[s:e]` on a character list: clamping, and empty
when `e ≤ s`. -/
def sliceList (text : List Char) (s e : Nat) : List Char :=
  (text.drop s).take (e - s)

/-- The placeholder `f"<{ty}_{n}>"` spliced in for a new key
(`anonymization.py` line 162). -/
def placeholder (ty : List Char) (n : Nat) : List Char :=
  '<' :: ((ty ++ '_' :: natChars n) ++ ['>'])

/-- Dictionary key used by `existing_mappings`: the pair
`(text[entity.start:entity.end], entity.entity_type)`
(`anonymization.py` lines 157-158). -/
abbrev MKey := List Char × List Char

/-- Key of a span with respect to the original text. -/
def keyOf (text : List Char) (e : Span) : MKey :=
  (sliceList text e.start e.«end», e.entity_type)

/-- The loop state of `anonymize_text`: `entity_counters` (a
`defaultdict(int)`), `existing_mappings` (a dict), `updated_analysis`
(the list of emitted mapping records) and the mutating buffer
`anonymized_text`. -/
structure AnonState where
  counters : List Char → Nat
  mappings : MKey → Option (List Char)
  entries : List MappingEntry
  buf : List Char

/-- One iteration of the `for entity in analysis` loop
(`anonymization.py` lines 156-174): look the key up, mint a fresh
placeholder with the next per-type counter when the key is new, then
splice `existing_mappings[key]` into the buffer at the span's original
offsets. -/
def stepR (text : List Char) (st : AnonState) (e : Span) : AnonState :=
  let entity_text := sliceList text e.start e.«end»
  let key : MKey := (entity_text, e.entity_type)
  match st.mappings key with
  | some lbl =>
    { st with buf := st.buf.take e.start ++ lbl ++ st.buf.drop e.«end» }
  | none =>
    let n := st.counters e.entity_type + 1
    let lbl := placeholder e.entity_type n
    { counters := fun t => if t = e.entity_type then n else st.counters t
      mappings := fun k => if k = key then some lbl else st.mappings k
      entries := st.entries ++ [⟨e.entity_type, entity_text, lbl⟩]
      buf := st.buf.take e.start ++ lbl ++ st.buf.drop e.«end» }

/-- Initial loop state (`anonymization.py` lines 151-154). -/
def initState (text : List Char) : AnonState :=
  { counters := fun _ => 0, mappings := fun _ => none, entries := [], buf := text }

/-- Stable insertion for descending sort by `start`: the inserted
element goes before the first element whose `start` is not larger,
matching the stability of Python's `sorted(..., reverse=True)`. -/
def insertDesc (e : Span) : List Span → List Span
  | [] => [e]
  | a :: as => if a.start ≤ e.start then e :: a :: as else a :: insertDesc e as

/-- `sorted(analysis, key=lambda x: x.start, reverse=True)`
(`anonymization.py` line 149): stable sort, descending by `start`. -/
def sortDesc : List Span → List Span
  | [] => []
  | x :: xs => insertDesc x (sortDesc xs)

/-- `anonymize_text` (`anonymization.py` lines 138-176) with the
external analyzer's output passed in as `analysis`.  Returns
`(anonymized_text, updated_analysis)`. -/
def anonymize_text (text : List Char) (analysis : List Span) :
    List Char × List MappingEntry :=
  let st := (sortDesc analysis).foldl (stepR text) (initState text)
  (st.buf, st.entries)

/-- The matching side of `re.sub` with an escaped-literal pattern:
replace every non-overlapping occurrence of the literal string `pat`
in `s` by `repl`, scanning left to right and never re-scanning the
text just substituted in.  Because `re.escape` makes the pattern match
exactly the literal string, this captures the scan of `app.py`
line 185 precisely; the replacement string handed to this primitive is
the *already template-expanded* replacement (see `pyReSub` below for
the full model including Python's replacement-template processing).
Fuel-indexed for structural recursion; fuel `s.length` suffices.  (An
empty pattern is returned unchanged; the engine's placeholders are
never empty.) -/
def replaceAllAux (pat repl : List Char) : Nat → List Char → List Char
  | 0, s => s
  | _ + 1, [] => []
  | fuel + 1, c :: cs =>
    if pat ≠ [] ∧ pat <+: (c :: cs) then
      repl ++ replaceAllAux pat repl fuel ((c :: cs).drop pat.length)
    else
      c :: replaceAllAux pat repl fuel cs

/-- Literal replace-all of `pat` by an already-expanded replacement. -/
def replaceAll (pat repl s : List Char) : List Char :=
  replaceAllAux pat repl s.length s

/-- Does a word-character run qualify as the body of a placeholder
token, i.e. match `\w+_\d+`?  Equivalently: the run contains an
underscore whose last occurrence has at least one character before it
and only digits (at least one) after it. -/
def phBody (r : List Char) : Bool :=
  let rv := r.reverse
  let d := rv.takeWhile (fun c => c.isDigit)
  !d.isEmpty &&
    (match rv.drop d.length with
     | '_' :: a => !a.isEmpty
     | _ => false)

/-- Attempt to match the cleanup regex `<\w+_\d+>` (`app.py` line 188)
at the head of `s`.  On success, return the remainder of the list after
the matched token.  Because `>` is not a word character, the regex
match starting at a `<` is forced to span the maximal word-character
run after it, so the match is unique when it exists. -/
def phMatch (s : List Char) : Option (List Char) :=
  match s with
  | '<' :: rest =>
    let r := rest.takeWhile isWordChar
    match rest.drop r.length with
    | '>' :: tail => if phBody r then some tail else none
    | _ => none
  | _ => none

/-- `re.sub(r'<\w+_\d+>', '', s)`: scan left to right, deleting each
placeholder-shaped token.  Fuel-indexed; fuel `s.length` suffices
because every recursive call strictly shrinks the list. -/
def stripPHAux : Nat → List Char → List Char
  | 0, s => s
  | _ + 1, [] => []
  | fuel + 1, c :: cs =>
    match phMatch (c :: cs) with
    | some tail => stripPHAux fuel tail
    | none => c :: stripPHAux fuel cs

/-- The final cleanup pass of `app.py` line 188. -/
def stripPH (s : List Char) : List Char := stripPHAux s.length s

/-- Is there a match of the cleanup regex anywhere in `s`? -/
def hasPH : List Char → Bool
  | [] => false
  | c :: cs => (phMatch (c :: cs)).isSome || hasPH cs

/-- `s` consists of ASCII characters only.  On such inputs the ASCII
regex model (`isWordChar`, `Char.isDigit`) coincides with Python's
Unicode-aware `\w`/`\d`. -/
def asciiOnly (s : List Char) : Bool := s.all (fun c => decide (c.toNat < 128))

/-- One parsed item of a `re.sub` replacement template: a literal
character, or a reference to group 0 (the whole match; the escaped
literal patterns used by the code contain no other groups). -/
inductive TemplItem where
  | lit : Char → TemplItem
  | group0 : TemplItem
deriving DecidableEq, Repr

/-- ASCII octal digit. -/
def isOctDigitCh (c : Char) : Bool := 48 ≤ c.toNat && c.toNat ≤ 55

/-- Value of a big-endian octal digit string. -/
def octListVal (l : List Char) : Nat :=
  l.foldl (fun a c => a * 8 + (c.toNat - 48)) 0

/-- The template escape table of `re` (`\a \b \f \n \r \t \v`). -/
def templEscapes (c : Char) : Option Char :=
  if c = 'a' then some (Char.ofNat 7)
  else if c = 'b' then some (Char.ofNat 8)
  else if c = 'f' then some (Char.ofNat 12)
  else if c = 'n' then some (Char.ofNat 10)
  else if c = 'r' then some (Char.ofNat 13)
  else if c = 't' then some (Char.ofNat 9)
  else if c = 'v' then some (Char.ofNat 11)
  else none

/-- ASCII letter (the range for which unknown template escapes raise
`re.error: bad escape`). -/
def isAsciiLetter (c : Char) : Bool :=
  (65 ≤ c.toNat && c.toNat ≤ 90) || (97 ≤ c.toNat && c.toNat ≤ 122)

/-- Python's `re.sub` replacement-template parser
(`re._parser.parse_template`), specialized to a pattern with zero
groups, which is what `re.escape(item["anonymized"])` compiles to.
`none` models `re.error` being raised (which the code surfaces as an
HTTP 500).  Branches, in the parser's order: a trailing backslash is a
bad escape; `\g<name>` requires `<`, a nonempty name and `>`, and with
zero groups only a numeric name of value 0 (the whole match) is valid
(Python's `int()` additionally tolerates signs, spaces, underscores and
Unicode digits in the name — corners not reachable from this
program's data and modelled as errors); `\0` plus up to two octal
digits is an octal escape; `\1..\9` is a group reference (always
invalid with zero groups) unless it extends to a three-octal-digit
escape of value at most 255; the known letter escapes map to control
characters; any other ASCII letter is a bad escape; any other escaped
character is kept literally together with its backslash.  Fuel-indexed;
fuel `s.length` suffices since each step consumes at least one
character. -/
def parseTemplateAux : Nat → List Char → Option (List TemplItem)
  | 0, [] => some []
  | 0, _ :: _ => none
  | _ + 1, [] => some []
  | fuel + 1, c :: cs =>
    if c = '\\' then
      match cs with
      | [] => none
      | d :: rest =>
        if d = 'g' then
          match rest with
          | '<' :: r2 =>
            let name := r2.takeWhile (fun x => decide (x ≠ '>'))
            match r2.drop name.length with
            | '>' :: r3 =>
              if name ≠ [] ∧ name.all (fun x => x.isDigit) then
                if name.all (fun x => decide (x = '0')) then
                  (parseTemplateAux fuel r3).map (TemplItem.group0 :: ·)
                else none
              else none
            | _ => none
          | _ => none
        else if d = '0' then
          let o := (rest.takeWhile isOctDigitCh).take 2
          (parseTemplateAux fuel (rest.drop o.length)).map
            (TemplItem.lit (Char.ofNat (octListVal o)) :: ·)
        else if d.isDigit then
          match rest with
          | e :: f :: r4 =>
            if isOctDigitCh d ∧ e.isDigit then
              if isOctDigitCh e ∧ isOctDigitCh f then
                if octListVal [d, e, f] ≤ 255 then
                  (parseTemplateAux fuel r4).map
                    (TemplItem.lit (Char.ofNat (octListVal [d, e, f])) :: ·)
                else none
              else none
            else none
          | _ => none
        else if d = '\\' then
          (parseTemplateAux fuel rest).map (TemplItem.lit '\\' :: ·)
        else
          match templEscapes d with
          | some ch => (parseTemplateAux fuel rest).map (TemplItem.lit ch :: ·)
          | none =>
            if isAsciiLetter d then none
            else (parseTemplateAux fuel rest).map
              (fun t => TemplItem.lit '\\' :: TemplItem.lit d :: t)
    else
      (parseTemplateAux fuel cs).map (TemplItem.lit c :: ·)

/-- Parse a replacement template (zero-group pattern). -/
def parseTemplate (repl : List Char) : Option (List TemplItem) :=
  parseTemplateAux repl.length repl

/-- Expand a parsed template at a match: group 0 is the matched text
(for an escaped-literal pattern, the pattern itself). -/
def expandTemplate (matched : List Char) : List TemplItem → List Char
  | [] => []
  | TemplItem.lit c :: ts => c :: expandTemplate matched ts
  | TemplItem.group0 :: ts => matched ++ expandTemplate matched ts

/-- Faithful model of `re.sub(re.escape(pat), repl, s)` as called in
`app.py` line 185: the replacement template is parsed eagerly (whether
or not the pattern matches; `none` models `re.error`), then every
literal occurrence of `pat` is replaced by the expanded replacement,
in which group 0 expands to the matched text, i.e. `pat` itself. -/
def pyReSub (pat repl s : List Char) : Option (List Char) :=
  (parseTemplate repl).map (fun t => replaceAll pat (expandTemplate pat t) s)

/-- The pure substitution cascade: all replace-all passes, in mapping
order, with each original spliced verbatim.  This is what the
recontextualization loop computes whenever no original value contains
a backslash (the fast path of `re.sub`). -/
def substPasses (mapping : List MappingEntry) (s : List Char) : List Char :=
  mapping.foldl (fun b it => replaceAll it.anonymized it.original b) s

/-- The recontextualization loop of `process_request` (`app.py`
lines 183-185): one `re.sub` replace-all pass per mapping entry, in
mapping order; the first `re.error` (from replacement-template
parsing) aborts the whole computation. -/
def reconstructCore (mapping : List MappingEntry) (s : List Char) :
    Option (List Char) :=
  mapping.foldl (fun b it => b.bind (pyReSub it.anonymized it.original)) (some s)

/-- Full reconstruction (`app.py` lines 183-188): per-entry
substitution followed by the cleanup strip of unmatched
placeholder-shaped tokens (the cleanup pass itself cannot raise: its
replacement is the empty string). -/
def reconstruct (s : List Char) (mapping : List MappingEntry) :
    Option (List Char) :=
  (reconstructCore mapping s).map stripPH

/-- Big-endian decimal value of a digit list; inverse of `natChars`. -/
def charsVal (l : List Char) : Nat :=
  l.foldl (fun a c => a * 10 + (c.toNat - 48)) 0

/-- Strings of the shape produced by `placeholder`: an opening angle
bracket, a run of word characters, a closing angle bracket. -/
def IsToken (p : List Char) : Prop :=
  ∃ w, p = '<' :: (w ++ ['>']) ∧ ∀ c ∈ w, isWordChar c = true

/-- `pat` occurs nowhere in `s` (at no split point is it a prefix of
the remainder). -/
def NoOcc (pat s : List Char) : Prop :=
  ∀ u v, s = u ++ v → v ≠ [] → ¬ pat <+: v

/-- No match of `pat` inside `A ++ B` crosses the boundary: a match
starting inside `A` stays inside `A`. -/
def CrossFree (pat A B : List Char) : Prop :=
  ∀ A₁ A₂, A = A₁ ++ A₂ → A₂ ≠ [] → pat <+: (A₂ ++ B) → pat <+: A₂

/-- The spans `a` and `b` do not overlap (the specification's
`a.start < b.end ∧ b.start < a.end` is forbidden). -/
def NoOverlap (a b : Span) : Prop :=
  ¬(a.start < b.«end» ∧ b.start < a.«end»)

instance (a b : Span) : Decidable (NoOverlap a b) :=
  decidable_of_iff (¬(a.start < b.«end» ∧ b.start < a.«end»)) Iff.rfl

/-- Well-formed descending processing chain below position `p`: each
span is non-degenerate, ends at or before `p`, and the rest of the
chain lies at or before its own start. -/
def ValidDesc : List Span → Nat → Prop
  | [], _ => True
  | d :: ds, p => d.«end» ≤ p ∧ d.start < d.«end» ∧ ValidDesc ds d.start

/-- The buffer obtained from the first `p` characters of `text` by
substituting `f d` for each span `d` in the descending chain `ds`. -/
def redactDesc (text : List Char) (f : Span → List Char) :
    List Span → Nat → List Char
  | [], p => text.take p
  | d :: ds, p => redactDesc text f ds d.start ++ (f d ++ sliceList text d.«end» p)

/-- Pointwise extension order on the mapping dictionary. -/
def MapLE (m₁ m₂ : MKey → Option (List Char)) : Prop :=
  ∀ k v, m₁ k = some v → m₂ k = some v

/-- The dictionary key documented by a mapping record. -/
def entryKey (en : MappingEntry) : MKey := (en.original, en.type)

/-- First-occurrence deduplication, preserving order of first
appearance. -/
def firstDedup : List MKey → List MKey
  | [] => []
  | k :: ks => k :: (firstDedup ks).filter (fun x => decide (x ≠ k))

/-- The final loop state of `anonymize_text`. -/
def anonState (text : List Char) (analysis : List Span) : AnonState :=
  (sortDesc analysis).foldl (stepR text) (initState text)

/-- The sequence of spans the substitution loop actually iterates and
splices (`anonymization.py` lines 149, 156): the analyzer output sorted
by `start` descending, with no filtering of any kind. -/
def substitutedSpans (analysis : List Span) : List Span := sortDesc analysis

/-- Invariant of the `anonymize_text` loop state tying together the
dictionary, the emitted records and the per-type counters. -/
def StInv (st : AnonState) : Prop :=
  (∀ k v, st.mappings k = some v →
      ∃ en ∈ st.entries, en.original = k.1 ∧ en.type = k.2 ∧ en.anonymized = v) ∧
  (∀ en ∈ st.entries, st.mappings (entryKey en) = some en.anonymized) ∧
  (st.entries.map entryKey).Nodup ∧
  (∀ ty, (st.entries.filter (fun en => decide (en.type = ty))).map
        (fun en => en.anonymized)
      = (List.range (st.counters ty)).map (fun i => placeholder ty (i + 1))) ∧
  (st.entries.map (fun en => en.anonymized)).Nodup

/-! ### Decimal representation: equations, digit facts, injectivity -/

theorem natCharsAux_eq (n : Nat) :
    ∀ f₁ f₂, n ≤ f₁ → n ≤ f₂ → natCharsAux f₁ n = natCharsAux f₂ n := by
  induction n using Nat.strong_induction_on with
  | _ n ih =>
    intro f₁ f₂ h₁ h₂
    cases f₁ with
    | zero =>
      cases f₂ with
      | zero => rfl
      | succ f₂ =>
        have hn : n = 0 := Nat.le_zero.mp h₁
        subst hn
        simp [natCharsAux]
    | succ f₁ =>
      cases f₂ with
      | zero =>
        have hn : n = 0 := Nat.le_zero.mp h₂
        subst hn
        simp [natCharsAux]
      | succ f₂ =>
        simp only [natCharsAux]
        split
        · rfl
        · rename_i hge
          have hd : n / 10 < n := Nat.div_lt_self (by omega) (by omega)
          rw [ih (n / 10) hd (f₁) (f₂) (by omega) (by omega)]

theorem natCharsAux_fuel {f n : Nat} (h : n ≤ f) :
    natCharsAux f n = natChars n :=
  natCharsAux_eq n f n h le_rfl

theorem natChars_lt {n : Nat} (h : n < 10) : natChars n = [digitChar n] := by
  cases n with
  | zero => simp [natChars, natCharsAux, digitChar]
  | succ m => simp [natChars, natCharsAux, h]

theorem natChars_ge {n : Nat} (h : 10 ≤ n) :
    natChars n = natChars (n / 10) ++ [digitChar (n % 10)] := by
  obtain ⟨m, rfl⟩ : ∃ m, n = m + 1 := ⟨n - 1, by omega⟩
  have hd : (m + 1) / 10 < m + 1 := Nat.div_lt_self (by omega) (by omega)
  simp only [natChars, natCharsAux, if_neg (by omega : ¬ m + 1 < 10)]
  rw [natCharsAux_eq ((m + 1) / 10) m ((m + 1) / 10) (by omega) le_rfl]

theorem digitChar_isDigit : ∀ k, k < 10 → (digitChar k).isDigit = true := by
  decide

theorem digitChar_toNat : ∀ k, k < 10 → (digitChar k).toNat = 48 + k := by
  decide

theorem natChars_digits (n : Nat) : ∀ c ∈ natChars n, c.isDigit = true := by
  induction n using Nat.strong_induction_on with
  | _ n ih =>
    by_cases h : n < 10
    · rw [natChars_lt h]
      intro c hc
      simp only [List.mem_singleton] at hc
      subst hc
      exact digitChar_isDigit n h
    · rw [natChars_ge (by omega)]
      intro c hc
      rcases List.mem_append.mp hc with hc | hc
      · exact ih (n / 10) (Nat.div_lt_self (by omega) (by omega)) c hc
      · simp only [List.mem_singleton] at hc
        subst hc
        exact digitChar_isDigit _ (Nat.mod_lt _ (by omega))

theorem natChars_ne_nil (n : Nat) : natChars n ≠ [] := by
  by_cases h : n < 10
  · rw [natChars_lt h]; simp
  · rw [natChars_ge (by omega)]; simp

theorem charsVal_natChars (n : Nat) : charsVal (natChars n) = n := by
  induction n using Nat.strong_induction_on with
  | _ n ih =>
    by_cases h : n < 10
    · rw [natChars_lt h]
      simp [charsVal, digitChar_toNat n h]
    · rw [natChars_ge (by omega)]
      have hd : n / 10 < n := Nat.div_lt_self (by omega) (by omega)
      have := ih (n / 10) hd
      simp only [charsVal, List.foldl_append, List.foldl_cons, List.foldl_nil] at *
      rw [this, digitChar_toNat _ (Nat.mod_lt _ (by omega))]
      omega

theorem natChars_inj {n m : Nat} (h : natChars n = natChars m) : n = m := by
  have := congrArg charsVal h
  rwa [charsVal_natChars, charsVal_natChars] at this

theorem natChars_no_underscore (n : Nat) : '_' ∉ natChars n := by
  intro hmem
  have := natChars_digits n '_' hmem
  simp [Char.isDigit] at this

/-! ### `replaceAll`: fuel independence and step equations -/

theorem replaceAllAux_eq (pat repl : List Char) :
    ∀ (k : Nat) (s : List Char), s.length ≤ k → ∀ f₁ f₂,
      s.length ≤ f₁ → s.length ≤ f₂ →
      replaceAllAux pat repl f₁ s = replaceAllAux pat repl f₂ s := by
  intro k
  induction k with
  | zero =>
    intro s hs f₁ f₂ _ _
    have : s = [] := List.length_eq_zero.mp (Nat.le_zero.mp hs)
    subst this
    cases f₁ <;> cases f₂ <;> rfl
  | succ k ih =>
    intro s hs f₁ f₂ h₁ h₂
    cases s with
    | nil => cases f₁ <;> cases f₂ <;> rfl
    | cons c cs =>
      cases f₁ with
      | zero => simp at h₁
      | succ f₁ =>
        cases f₂ with
        | zero => simp at h₂
        | succ f₂ =>
          simp only [replaceAllAux]
          split
          · rename_i hcond
            have hp : 1 ≤ pat.length := by
              cases hpat : pat with
              | nil => exact absurd hpat hcond.1
              | cons a as => simp
            congr 1
            apply ih
            · simp only [List.length_drop, List.length_cons] at *
              omega
            · simp only [List.length_drop, List.length_cons] at *
              omega
            · simp only [List.length_drop, List.length_cons] at *
              omega
          · congr 1
            apply ih
            · simp only [List.length_cons] at hs
              omega
            · simp only [List.length_cons] at h₁
              omega
            · simp only [List.length_cons] at h₂
              omega

theorem replaceAllAux_fuel {pat repl s : List Char} {f : Nat}
    (h : s.length ≤ f) : replaceAllAux pat repl f s = replaceAll pat repl s :=
  replaceAllAux_eq pat repl s.length s le_rfl f s.length h le_rfl

theorem replaceAll_nil (pat repl : List Char) : replaceAll pat repl [] = [] := rfl

theorem replaceAll_cons_pos {pat : List Char} (repl : List Char) {c : Char}
    {cs : List Char} (h1 : pat ≠ []) (h2 : pat <+: (c :: cs)) :
    replaceAll pat repl (c :: cs) =
      repl ++ replaceAll pat repl ((c :: cs).drop pat.length) := by
  have hp : 1 ≤ pat.length := by
    cases hpat : pat with
    | nil => exact absurd hpat h1
    | cons a as => simp
  simp only [replaceAll, List.length_cons, replaceAllAux, if_pos (And.intro h1 h2)]
  congr 1
  apply replaceAllAux_eq pat repl ((c :: cs).drop pat.length).length _ le_rfl <;>
    simp only [List.length_drop, List.length_cons] <;> omega

theorem replaceAll_cons_neg {pat : List Char} (repl : List Char) {c : Char}
    {cs : List Char} (h : ¬(pat ≠ [] ∧ pat <+: (c :: cs))) :
    replaceAll pat repl (c :: cs) = c :: replaceAll pat repl cs := by
  simp only [replaceAll, List.length_cons, replaceAllAux, if_neg h]

theorem replaceAll_append_pat {pat : List Char} (repl s : List Char)
    (h : pat ≠ []) :
    replaceAll pat repl (pat ++ s) = repl ++ replaceAll pat repl s := by
  cases pat with
  | nil => exact absurd rfl h
  | cons a as =>
    have hpre : (a :: as) <+: (a :: (as ++ s)) := by
      rw [← List.cons_append]
      exact List.prefix_append _ s
    have hd : (a :: (as ++ s)).drop (a :: as).length = s := by
      simpa using List.drop_left as s
    rw [List.cons_append, replaceAll_cons_pos repl h hpre, hd]

theorem replaceAll_of_noOcc {pat : List Char} (repl : List Char) {s : List Char}
    (h : NoOcc pat s) : replaceAll pat repl s = s := by
  induction s with
  | nil => rfl
  | cons c cs ih =>
    have hnp : ¬ pat <+: (c :: cs) := h [] (c :: cs) rfl (by simp)
    rw [replaceAll_cons_neg repl (by simp [hnp])]
    congr 1
    apply ih
    intro u v huv hv
    exact h (c :: u) v (by simp [huv]) hv

theorem replaceAll_append_of_crossFree {pat : List Char} (repl : List Char)
    (hpat : pat ≠ []) :
    ∀ (k : Nat) (A B : List Char), A.length ≤ k → CrossFree pat A B →
      replaceAll pat repl (A ++ B) =
        replaceAll pat repl A ++ replaceAll pat repl B := by
  intro k
  induction k with
  | zero =>
    intro A B hA _
    have : A = [] := List.length_eq_zero.mp (Nat.le_zero.mp hA)
    subst this
    simp [replaceAll_nil]
  | succ k ih =>
    intro A B hA hcf
    cases A with
    | nil => simp [replaceAll_nil]
    | cons c cs =>
      have hp1 : 1 ≤ pat.length := List.length_pos.mpr hpat
      by_cases hpre : pat <+: (c :: cs) ++ B
      · have hpreA : pat <+: (c :: cs) := hcf [] (c :: cs) rfl (by simp) hpre
        have hlen : pat.length ≤ (c :: cs).length := hpreA.length_le
        rw [List.cons_append, replaceAll_cons_pos repl hpat (by
          rw [← List.cons_append]; exact hpre)]
        rw [replaceAll_cons_pos repl hpat hpreA]
        rw [← List.cons_append, List.drop_append_of_le_length hlen]
        rw [ih ((c :: cs).drop pat.length) B
          (by simp only [List.length_drop, List.length_cons] at *; omega)
          (by
            intro A₁ A₂ hsplit hne hp
            apply hcf ((c :: cs).take pat.length ++ A₁) A₂ _ hne hp
            rw [List.append_assoc, ← hsplit, List.take_append_drop])]
        simp [List.append_assoc]
      · have hnpreA : ¬ pat <+: (c :: cs) := by
          intro hc
          exact hpre (hc.trans (List.prefix_append (c :: cs) B))
        have hpre' : ¬ pat <+: c :: (cs ++ B) := by
          rw [← List.cons_append]
          exact hpre
        rw [List.cons_append, replaceAll_cons_neg repl (fun hc => hpre' hc.2),
          replaceAll_cons_neg repl (fun hc => hnpreA hc.2)]
        rw [ih cs B (by simp only [List.length_cons] at hA; omega)
          (by
            intro A₁ A₂ hsplit hne hp
            exact hcf (c :: A₁) A₂ (by simp [hsplit]) hne hp)]
        simp

theorem replaceAll_self {pat : List Char} (repl : List Char) (h : pat ≠ []) :
    replaceAll pat repl pat = repl := by
  have := replaceAll_append_pat repl [] h
  simpa [replaceAll_nil] using this

/-! ### Separator splitting and token structure -/

theorem sep_split_unique {sep : Char} :
    ∀ {u₁ u₂ v₁ v₂ : List Char},
      u₁ ++ sep :: v₁ = u₂ ++ sep :: v₂ → sep ∉ u₁ → sep ∉ u₂ →
      u₁ = u₂ ∧ v₁ = v₂ := by
  intro u₁
  induction u₁ with
  | nil =>
    intro u₂ v₁ v₂ h h₁ h₂
    cases u₂ with
    | nil => simpa using h
    | cons b u₂' =>
      simp only [List.nil_append, List.cons_append, List.cons.injEq] at h
      exact absurd (h.1 ▸ List.mem_cons_self b u₂') (by simpa [h.1] using h₂)
  | cons a u₁' ih =>
    intro u₂ v₁ v₂ h h₁ h₂
    cases u₂ with
    | nil =>
      simp only [List.cons_append, List.nil_append, List.cons.injEq] at h
      exact absurd (h.1 ▸ List.mem_cons_self a u₁') (by simpa [h.1] using h₁)
    | cons b u₂' =>
      simp only [List.cons_append, List.cons.injEq] at h
      obtain ⟨rfl, h'⟩ := h
      have := ih h' (fun hm => h₁ (List.mem_cons_of_mem _ hm))
        (fun hm => h₂ (List.mem_cons_of_mem _ hm))
      exact ⟨by rw [this.1], this.2⟩

theorem isWordChar_gt : isWordChar '>' = false := by decide

theorem isWordChar_lt : isWordChar '<' = false := by decide

theorem isWordChar_underscore : isWordChar '_' = true := by decide

theorem IsToken.ne_nil {p : List Char} (h : IsToken p) : p ≠ [] := by
  obtain ⟨w, rfl, -⟩ := h
  simp

theorem IsToken.no_gt_in_body {w : List Char}
    (hw : ∀ c ∈ w, isWordChar c = true) : '>' ∉ w := by
  intro hm
  have := hw '>' hm
  rw [isWordChar_gt] at this
  exact absurd this (by simp)

theorem IsToken.no_lt_in_body {w : List Char}
    (hw : ∀ c ∈ w, isWordChar c = true) : '<' ∉ w := by
  intro hm
  have := hw '<' hm
  rw [isWordChar_lt] at this
  exact absurd this (by simp)

/-- A token that is a prefix of another token is equal to it. -/
theorem token_pre_token {p q : List Char} (hp : IsToken p) (hq : IsToken q)
    (h : p <+: q) : p = q := by
  obtain ⟨w₁, rfl, hw₁⟩ := hp
  obtain ⟨w₂, rfl, hw₂⟩ := hq
  obtain ⟨t, ht⟩ := h
  simp only [List.cons_append, List.cons.injEq] at ht
  have h' : w₁ ++ '>' :: t = w₂ ++ '>' :: [] := by
    simpa [List.append_assoc] using ht.2
  obtain ⟨rfl, rfl⟩ := sep_split_unique h' (IsToken.no_gt_in_body hw₁)
    (IsToken.no_gt_in_body hw₂)
  simp

/-- A match of a token pattern cannot cross from `A₂` into a right part
that begins with an opening angle bracket. -/
theorem crossFree_head_lt {pat : List Char} (hpat : IsToken pat)
    (A B' : List Char) : CrossFree pat A ('<' :: B') := by
  intro A₁ A₂ _ hne hpre
  obtain ⟨w, hw, hwchars⟩ := hpat
  obtain ⟨t, ht⟩ := hpre
  rcases List.append_eq_append_iff.mp ht with ⟨a, ha, -⟩ | ⟨c', hc', hc₂⟩
  · exact ⟨a, ha.symm⟩
  · cases c' with
    | nil =>
      refine ⟨[], ?_⟩
      simp only [List.append_nil] at hc' ⊢
      exact hc'
    | cons x c'' =>
      simp only [List.cons_append, List.cons.injEq] at hc₂
      obtain ⟨hx, -⟩ := hc₂
      subst hx
      cases A₂ with
      | nil => exact absurd rfl hne
      | cons a₀ A₂' =>
        rw [hw, List.cons_append] at hc'
        simp only [List.cons.injEq] at hc'
        have hmem : '<' ∈ w ++ ['>'] := by
          rw [hc'.2]
          exact List.mem_append_right _ (List.mem_cons_self _ _)
        rcases List.mem_append.mp hmem with hm | hm
        · exact absurd hm (IsToken.no_lt_in_body hwchars)
        · simp at hm

/-- A match of a token pattern starting inside a token `q` either is
`q` itself (when it starts at the front) or cannot exist: matches never
cross the right boundary of a token. -/
theorem crossFree_token {pat q : List Char} (hpat : IsToken pat)
    (hq : IsToken q) (S : List Char) : CrossFree pat q S := by
  intro P₁ P₂ hsplit hne hpre
  obtain ⟨w₁, hw₁, hchars₁⟩ := hpat
  obtain ⟨w₂, hw₂, hchars₂⟩ := hq
  cases P₁ with
  | cons p₀ P₁' =>
    -- the match would have to start strictly inside the token: its
    -- first character is a word character or the closing bracket,
    -- never the opening bracket that `pat` starts with
    cases P₂ with
    | nil => exact absurd rfl hne
    | cons x P₂' =>
      obtain ⟨t, ht⟩ := hpre
      have hx : x = '<' := by
        rw [hw₁] at ht
        simp only [List.cons_append, List.cons.injEq] at ht
        exact ht.1.symm
      subst hx
      rw [hw₂] at hsplit
      simp only [List.cons_append, List.cons.injEq] at hsplit
      have hmem : '<' ∈ w₂ ++ ['>'] := by
        rw [hsplit.2]
        exact List.mem_append_right _ (List.mem_cons_self _ _)
      rcases List.mem_append.mp hmem with hm | hm
      · exact absurd hm (IsToken.no_lt_in_body hchars₂)
      · simp at hm
  | nil =>
    -- the split is at the front: `P₂ = q`
    simp only [List.nil_append] at hsplit
    subst hsplit
    obtain ⟨t, ht⟩ := hpre
    rcases List.append_eq_append_iff.mp ht with ⟨a, ha, -⟩ | ⟨c', hc', hc₂⟩
    · exact ⟨a, ha.symm⟩
    · cases c' with
      | nil =>
        refine ⟨[], ?_⟩
        simp only [List.append_nil] at hc' ⊢
        exact hc'
      | cons x c'' =>
        -- `pat = q ++ x :: c''`: the closing bracket of `q` would sit
        -- strictly inside the word-character body of `pat`
        rw [hw₁, hw₂] at hc'
        simp only [List.cons_append, List.cons.injEq] at hc'
        have h' : w₁ ++ '>' :: ([] : List Char) =
            w₂ ++ '>' :: (x :: c'') := by
          simpa [List.append_assoc] using hc'.2
        obtain ⟨-, h2⟩ := sep_split_unique h' (IsToken.no_gt_in_body hchars₁)
          (IsToken.no_gt_in_body hchars₂)
        exact absurd h2.symm (by simp)

/-- A token pattern different from a token `q` does not occur in `q`. -/
theorem noOcc_token_ne {pat q : List Char} (hpat : IsToken pat)
    (hq : IsToken q) (hne : pat ≠ q) : NoOcc pat q := by
  intro u v hsplit hv hpre
  cases u with
  | nil =>
    simp only [List.nil_append] at hsplit
    subst hsplit
    exact hne (token_pre_token hpat hq hpre)
  | cons u₀ u' =>
    obtain ⟨w₂, hw₂, hchars₂⟩ := hq
    cases v with
    | nil => exact hv rfl
    | cons x v' =>
      obtain ⟨w₁, hw₁, hchars₁⟩ := hpat
      obtain ⟨t, ht⟩ := hpre
      have hx : x = '<' := by
        rw [hw₁] at ht
        simp only [List.cons_append, List.cons.injEq] at ht
        exact ht.1.symm
      subst hx
      rw [hw₂] at hsplit
      simp only [List.cons_append, List.cons.injEq] at hsplit
      have hmem : '<' ∈ w₂ ++ ['>'] := by
        rw [hsplit.2]
        exact List.mem_append_right _ (List.mem_cons_self _ _)
      rcases List.mem_append.mp hmem with hm | hm
      · exact absurd hm (IsToken.no_lt_in_body hchars₂)
      · simp at hm

/-! ### Placeholders are tokens; injectivity -/

theorem isWordChar_of_isDigit {c : Char} (h : c.isDigit = true) :
    isWordChar c = true := by
  simp [isWordChar, Char.isAlphanum, h]

theorem placeholder_body_wordchars {ty : List Char} (n : Nat)
    (hw : ∀ c ∈ ty, isWordChar c = true) :
    ∀ c ∈ ty ++ '_' :: natChars n, isWordChar c = true := by
  intro c hc
  rcases List.mem_append.mp hc with hm | hm
  · exact hw c hm
  · rcases List.mem_cons.mp hm with rfl | hm
    · exact isWordChar_underscore
    · exact isWordChar_of_isDigit (natChars_digits n c hm)

theorem placeholder_isToken {ty : List Char} (n : Nat)
    (hw : ∀ c ∈ ty, isWordChar c = true) : IsToken (placeholder ty n) :=
  ⟨ty ++ '_' :: natChars n, rfl, placeholder_body_wordchars n hw⟩

theorem placeholder_ne_nil (ty : List Char) (n : Nat) :
    placeholder ty n ≠ [] := by
  simp [placeholder]

theorem placeholder_inj {ty₁ ty₂ : List Char} {n₁ n₂ : Nat}
    (h : placeholder ty₁ n₁ = placeholder ty₂ n₂) : ty₁ = ty₂ ∧ n₁ = n₂ := by
  simp only [placeholder, List.cons.injEq, true_and] at h
  have h' : ty₁ ++ '_' :: natChars n₁ = ty₂ ++ '_' :: natChars n₂ := by
    have := h
    rwa [List.append_left_inj] at this
  have hr : (natChars n₁).reverse ++ '_' :: ty₁.reverse
      = (natChars n₂).reverse ++ '_' :: ty₂.reverse := by
    have := congrArg List.reverse h'
    simpa [List.reverse_append] using this
  have hnu₁ : '_' ∉ (natChars n₁).reverse := fun hm =>
    natChars_no_underscore n₁ (List.mem_reverse.mp hm)
  have hnu₂ : '_' ∉ (natChars n₂).reverse := fun hm =>
    natChars_no_underscore n₂ (List.mem_reverse.mp hm)
  obtain ⟨hd, hty⟩ := sep_split_unique hr hnu₁ hnu₂
  constructor
  · exact List.reverse_injective hty
  · exact natChars_inj (List.reverse_injective hd)

/-! ### The cleanup regex on placeholders -/

theorem takeWhile_all_append (p : Char → Bool) :
    ∀ xs ys : List Char, (∀ c ∈ xs, p c = true) →
      (xs ++ ys).takeWhile p = xs ++ ys.takeWhile p := by
  intro xs
  induction xs with
  | nil => simp
  | cons a as ih =>
    intro ys h
    have ha : p a = true := h a (List.mem_cons_self a as)
    simp only [List.cons_append, List.takeWhile_cons, ha, if_true]
    rw [ih ys (fun c hc => h c (List.mem_cons_of_mem a hc))]

theorem phBody_placeholder {ty : List Char} (n : Nat) (hty : ty ≠ []) :
    phBody (ty ++ '_' :: natChars n) = true := by
  simp only [phBody]
  have hrv : (ty ++ '_' :: natChars n).reverse
      = (natChars n).reverse ++ '_' :: ty.reverse := by
    simp [List.reverse_append]
  rw [hrv]
  rw [takeWhile_all_append (fun c => c.isDigit) (natChars n).reverse
    ('_' :: ty.reverse) (fun c hc => natChars_digits n c (List.mem_reverse.mp hc))]
  have hund : ('_' :: ty.reverse).takeWhile (fun c => c.isDigit) = [] := by
    simp [List.takeWhile_cons]
  rw [hund, List.append_nil]
  have hne : (natChars n).reverse ≠ [] := by
    simp [natChars_ne_nil n]
  have hdrop : ((natChars n).reverse ++ '_' :: ty.reverse).drop
      (natChars n).reverse.length = '_' :: ty.reverse :=
    List.drop_left _ _
  rw [hdrop]
  simp [hne, hty]

theorem phMatch_placeholder {ty : List Char} (n : Nat) (rest : List Char)
    (hty : ty ≠ []) (hw : ∀ c ∈ ty, isWordChar c = true) :
    phMatch (placeholder ty n ++ rest) = some rest := by
  have hshape : placeholder ty n ++ rest
      = '<' :: ((ty ++ '_' :: natChars n) ++ '>' :: rest) := by
    simp [placeholder, List.append_assoc]
  rw [hshape]
  have htw : ((ty ++ '_' :: natChars n) ++ '>' :: rest).takeWhile isWordChar
      = ty ++ '_' :: natChars n := by
    rw [takeWhile_all_append isWordChar _ _ (placeholder_body_wordchars n hw)]
    simp [List.takeWhile_cons, isWordChar_gt]
  have hdr : ((ty ++ '_' :: natChars n) ++ '>' :: rest).drop
      (ty ++ '_' :: natChars n).length = '>' :: rest := List.drop_left _ _
  simp only [phMatch, htw, hdr, phBody_placeholder n hty, if_true]

theorem hasPH_of_match : ∀ (u v : List Char), (phMatch v).isSome = true →
    hasPH (u ++ v) = true := by
  intro u
  induction u with
  | nil =>
    intro v hv
    cases v with
    | nil => simp [phMatch] at hv
    | cons c cs => simp [hasPH, hv]
  | cons a u' ih =>
    intro v hv
    rw [List.cons_append]
    simp only [hasPH, ih v hv, Bool.or_true]

/-- If the cleanup regex matches nowhere in `s`, then no placeholder
of a nonempty word-character type occurs in `s`. -/
theorem noOcc_of_hasPH_false {ty : List Char} {n : Nat} {s : List Char}
    (hs : hasPH s = false) (hty : ty ≠ [])
    (hw : ∀ c ∈ ty, isWordChar c = true) : NoOcc (placeholder ty n) s := by
  intro u v hsplit hv hpre
  obtain ⟨t, ht⟩ := hpre
  have : hasPH s = true := by
    rw [hsplit, ← ht]
    exact hasPH_of_match u _ (by rw [phMatch_placeholder n t hty hw]; rfl)
  rw [hs] at this
  exact absurd this (by simp)

/-! ### `NoOcc` transfers to sublists -/

theorem noOcc_sub {pat s : List Char} (x m z : List Char) (h : NoOcc pat s)
    (hs : s = x ++ (m ++ z)) : NoOcc pat m := by
  intro u v hsplit hv hpre
  exact h (x ++ u) (v ++ z)
    (by rw [hs, hsplit]; simp [List.append_assoc])
    (by cases v with
        | nil => exact absurd rfl hv
        | cons a b => simp)
    (hpre.trans (List.prefix_append v z))

theorem noOcc_take {pat s : List Char} (h : NoOcc pat s) (p : Nat) :
    NoOcc pat (s.take p) :=
  noOcc_sub [] (s.take p) (s.drop p) h (by simp [List.take_append_drop])

theorem noOcc_slice {pat s : List Char} (h : NoOcc pat s) (a b : Nat) :
    NoOcc pat (sliceList s a b) := by
  apply noOcc_sub (s.take a) (sliceList s a b) ((s.drop a).drop (b - a)) h
  rw [sliceList, List.take_append_drop, List.take_append_drop]

/-! ### The cleanup pass -/

theorem phMatch_cons_ne {y : Char} (hy : y ≠ '<') (Y : List Char) :
    phMatch (y :: Y) = none := by
  simp only [phMatch]
  split
  · rename_i heq
    simp only [List.cons.injEq] at heq
    exact absurd heq.1 hy
  · rfl

theorem phMatch_none_of_hasPH_false :
    ∀ (u s : List Char), hasPH s = false → ∀ v, s = u ++ v →
      phMatch v = none := by
  intro u
  induction u with
  | nil =>
    intro s hs v h
    simp only [List.nil_append] at h
    subst h
    cases s with
    | nil => rfl
    | cons c cs =>
      simp only [hasPH, Bool.or_eq_false_iff] at hs
      simpa using hs.1
  | cons a u' ih =>
    intro s hs v h
    subst h
    simp only [hasPH, Bool.or_eq_false_iff] at hs
    exact ih _ hs.2 v rfl

theorem stripPHAux_of_none {s : List Char}
    (h : ∀ u v, s = u ++ v → phMatch v = none) : ∀ f, stripPHAux f s = s := by
  induction s with
  | nil => intro f; cases f <;> rfl
  | cons c cs ih =>
    intro f
    cases f with
    | zero => rfl
    | succ f =>
      simp only [stripPHAux, h [] (c :: cs) rfl]
      rw [ih (fun u v hv => h (c :: u) v (by simp [hv])) f]

theorem stripPH_of_hasPH_false {s : List Char} (hs : hasPH s = false) :
    stripPH s = s :=
  stripPHAux_of_none (fun u v h => phMatch_none_of_hasPH_false u s hs v h) s.length

theorem stripPHAux_append {Y : List Char} :
    ∀ (X : List Char),
      (∀ u v, X = u ++ v → v ≠ [] → phMatch (v ++ Y) = none) →
      stripPHAux (X.length + Y.length) (X ++ Y) = X ++ stripPHAux Y.length Y := by
  intro X
  induction X with
  | nil => simp
  | cons c cs ih =>
    intro h
    have hm : phMatch ((c :: cs) ++ Y) = none := h [] (c :: cs) rfl (by simp)
    rw [List.cons_append] at hm
    have hfuel : (c :: cs).length + Y.length = (cs.length + Y.length) + 1 := by
      simp only [List.length_cons]
      omega
    rw [List.cons_append, hfuel]
    simp only [stripPHAux, hm]
    rw [ih (fun u v hv hvne => h (c :: u) v (by simp [hv]) hvne)]
    simp

/-- When the left part contains no opening angle bracket, the cleanup
pass leaves it untouched and acts only on the right part. -/
theorem stripPH_append_no_lt {X Y : List Char} (hX : '<' ∉ X) :
    stripPH (X ++ Y) = X ++ stripPH Y := by
  rw [stripPH, stripPH, List.length_append]
  apply stripPHAux_append
  intro u v huv hv
  cases v with
  | nil => exact absurd rfl hv
  | cons x v' =>
    have hx : x ∈ X := by
      rw [huv]
      exact List.mem_append_right u (List.mem_cons_self x v')
    rw [List.cons_append]
    exact phMatch_cons_ne (fun he => hX (he ▸ hx)) _

/-! ### Decidable occurrence check -/

/-- Boolean check: does `pat` occur (as a contiguous block) in `s`? -/
def hasOcc (pat : List Char) : List Char → Bool
  | [] => decide (pat <+: ([] : List Char))
  | c :: cs => decide (pat <+: (c :: cs)) || hasOcc pat cs

theorem noOcc_of_hasOcc_false {pat : List Char} :
    ∀ {s : List Char}, hasOcc pat s = false → NoOcc pat s := by
  intro s
  induction s with
  | nil =>
    intro _ u v huv hv _
    have : v = [] := by
      cases u with
      | nil => simpa using huv.symm
      | cons a u' => simp at huv
    exact hv this
  | cons c cs ih =>
    intro h u v huv hv hpre
    simp only [hasOcc, Bool.or_eq_false_iff, decide_eq_false_iff_not] at h
    cases u with
    | nil =>
      simp only [List.nil_append] at huv
      exact h.1 (huv ▸ hpre)
    | cons a u' =>
      simp only [List.cons_append, List.cons.injEq] at huv
      exact ih h.2 u' v huv.2 hv hpre

theorem crossFree_of_no_lt {pat : List Char} (hpat : IsToken pat)
    {A : List Char} (hA : '<' ∉ A) (B : List Char) : CrossFree pat A B := by
  intro A₁ A₂ hsplit hne hpre
  obtain ⟨w, hw, -⟩ := hpat
  cases A₂ with
  | nil => exact absurd rfl hne
  | cons x A₂' =>
    obtain ⟨t, ht⟩ := hpre
    rw [hw] at ht
    simp only [List.cons_append, List.cons.injEq] at ht
    have hx : x ∈ A := by
      rw [hsplit]
      exact List.mem_append_right A₁ (List.mem_cons_self x A₂')
    exact absurd (ht.1 ▸ hx) hA

theorem noOcc_of_no_lt {pat : List Char} (hpat : IsToken pat)
    {s : List Char} (hs : '<' ∉ s) : NoOcc pat s := by
  intro u v huv hv hpre
  obtain ⟨w, hw, -⟩ := hpat
  cases v with
  | nil => exact hv rfl
  | cons x v' =>
    obtain ⟨t, ht⟩ := hpre
    rw [hw] at ht
    simp only [List.cons_append, List.cons.injEq] at ht
    have hx : x ∈ s := by
      rw [huv]
      exact List.mem_append_right u (List.mem_cons_self x v')
    exact absurd (ht.1 ▸ hx) hs

/-! ### Slices -/

theorem sliceList_concat {text : List Char} {a q p : Nat} (h1 : a ≤ q)
    (h2 : q ≤ p) :
    sliceList text a q ++ sliceList text q p = sliceList text a p := by
  simp only [sliceList]
  have hq : text.drop q = (text.drop a).drop (q - a) := by
    rw [List.drop_drop]
    congr 1
    omega
  rw [hq, ← List.take_add]
  congr 1
  omega

theorem take_add_slice {text : List Char} {q p : Nat} (h : q ≤ p) :
    text.take q ++ sliceList text q p = text.take p := by
  rw [sliceList]
  have hp : text.take p = text.take (q + (p - q)) := by
    congr 1
    omega
  rw [hp, List.take_add]

/-! ### The sort of the substitution loop -/

theorem insertDesc_perm (e : Span) :
    ∀ l : List Span, (insertDesc e l).Perm (e :: l) := by
  intro l
  induction l with
  | nil => simp [insertDesc]
  | cons a as ih =>
    simp only [insertDesc]
    split
    · exact List.Perm.refl _
    · exact (List.Perm.cons a ih).trans (List.Perm.swap e a as)

theorem sortDesc_perm : ∀ l : List Span, (sortDesc l).Perm l := by
  intro l
  induction l with
  | nil => simp [sortDesc]
  | cons x xs ih =>
    simp only [sortDesc]
    exact (insertDesc_perm x (sortDesc xs)).trans (List.Perm.cons x ih)

theorem insertDesc_sorted {e : Span} :
    ∀ {l : List Span}, l.Pairwise (fun a b => b.start ≤ a.start) →
      (insertDesc e l).Pairwise (fun a b => b.start ≤ a.start) := by
  intro l
  induction l with
  | nil => intro _; simp [insertDesc]
  | cons a as ih =>
    intro h
    simp only [insertDesc]
    split
    · rename_i hle
      refine List.Pairwise.cons ?_ h
      intro b hb
      rcases List.mem_cons.mp hb with rfl | hb
      · exact hle
      · exact le_trans ((List.pairwise_cons.mp h).1 b hb) hle
    · rename_i hgt
      push_neg at hgt
      rw [List.pairwise_cons] at h
      refine List.pairwise_cons.mpr ⟨?_, ih h.2⟩
      intro b hb
      have hmem := (insertDesc_perm e as).mem_iff.mp hb
      rcases List.mem_cons.mp hmem with rfl | hb'
      · exact le_of_lt hgt
      · exact h.1 b hb'

theorem sortDesc_sorted : ∀ l : List Span,
    (sortDesc l).Pairwise (fun a b => b.start ≤ a.start) := by
  intro l
  induction l with
  | nil => simp [sortDesc]
  | cons x xs ih => exact insertDesc_sorted ih

/-! ### Valid descending chains -/

theorem validDesc_of_sorted_nonoverlap :
    ∀ (l : List Span) (p : Nat),
      l.Pairwise (fun a b => b.start ≤ a.start) →
      l.Pairwise NoOverlap →
      (∀ e ∈ l, e.start < e.«end») →
      (∀ e ∈ l, e.«end» ≤ p) →
      ValidDesc l p := by
  intro l
  induction l with
  | nil => intro p _ _ _ _; trivial
  | cons d ds ih =>
    intro p hsort hnov hval hend
    refine ⟨hend d (List.mem_cons_self d ds), hval d (List.mem_cons_self d ds), ?_⟩
    rw [List.pairwise_cons] at hsort hnov
    apply ih d.start hsort.2 hnov.2
      (fun e he => hval e (List.mem_cons_of_mem d he))
    intro e he
    have h1 := hsort.1 e he
    have h2 := hnov.1 e he
    have h4 := hval d (List.mem_cons_self d ds)
    by_contra hc
    push_neg at hc
    exact h2 ⟨hc, lt_of_le_of_lt h1 h4⟩

theorem validDesc_mono :
    ∀ {l : List Span} {q p : Nat}, ValidDesc l q → q ≤ p → ValidDesc l p := by
  intro l
  cases l with
  | nil => intro q p _ _; trivial
  | cons d ds => exact fun h hqp => ⟨le_trans h.1 hqp, h.2.1, h.2.2⟩

theorem validDesc_filter (f : Span → Bool) :
    ∀ (l : List Span) (p : Nat), ValidDesc l p → ValidDesc (l.filter f) p := by
  intro l
  induction l with
  | nil => intro p _; trivial
  | cons d ds ih =>
    intro p h
    by_cases hf : f d = true
    · rw [List.filter_cons_of_pos hf]
      exact ⟨h.1, h.2.1, ih d.start h.2.2⟩
    · rw [List.filter_cons_of_neg (by simpa using hf)]
      exact validDesc_mono (ih d.start h.2.2) (le_trans (le_of_lt h.2.1) h.1)

theorem redactDesc_glue (text : List Char) (f : Span → List Char) :
    ∀ (ds : List Span) (q p : Nat), ValidDesc ds q → q ≤ p →
      redactDesc text f ds p = redactDesc text f ds q ++ sliceList text q p := by
  intro ds
  induction ds with
  | nil =>
    intro q p _ hqp
    simp only [redactDesc]
    exact (take_add_slice hqp).symm
  | cons d ds ih =>
    intro q p h hqp
    simp only [redactDesc]
    rw [← sliceList_concat h.1 hqp]
    simp [List.append_assoc]

/-! ### The substitution loop produces a `redactDesc` buffer -/

theorem mapLE_trans {m₁ m₂ m₃ : MKey → Option (List Char)}
    (h1 : MapLE m₁ m₂) (h2 : MapLE m₂ m₃) : MapLE m₁ m₃ :=
  fun k v hv => h2 k v (h1 k v hv)

theorem stepR_buf (text : List Char) (st : AnonState) (e : Span) :
    ∃ lbl, (stepR text st e).mappings (keyOf text e) = some lbl ∧
      (stepR text st e).buf =
        st.buf.take e.start ++ lbl ++ st.buf.drop e.«end» ∧
      MapLE st.mappings (stepR text st e).mappings := by
  simp only [stepR, keyOf]
  split
  · rename_i lbl hm
    exact ⟨lbl, hm, rfl, fun k v hv => hv⟩
  · rename_i hm
    refine ⟨placeholder e.entity_type (st.counters e.entity_type + 1),
      by simp, rfl, ?_⟩
    intro k v hv
    by_cases hk : k = (sliceList text e.start e.«end», e.entity_type)
    · subst hk
      rw [hm] at hv
      exact absurd hv (by simp)
    · simpa [hk] using hv

theorem foldl_stepR (text : List Char) :
    ∀ (ds : List Span) (p : Nat) (st : AnonState) (R : List Char),
      ValidDesc ds p → p ≤ text.length → st.buf = text.take p ++ R →
      MapLE st.mappings ((ds.foldl (stepR text) st).mappings) ∧
      (∀ d ∈ ds, ∃ v,
        (ds.foldl (stepR text) st).mappings (keyOf text d) = some v) ∧
      (ds.foldl (stepR text) st).buf =
        redactDesc text
          (fun d => ((ds.foldl (stepR text) st).mappings (keyOf text d)).getD [])
          ds p ++ R := by
  intro ds
  induction ds with
  | nil =>
    intro p st R _ _ hbuf
    refine ⟨fun k v hv => hv, by simp, ?_⟩
    simpa [redactDesc] using hbuf
  | cons d ds ih =>
    intro p st R hv hp hbuf
    obtain ⟨hde, hdse, hvd⟩ := hv
    obtain ⟨lbl, hm1, hbuf1, hmono1⟩ := stepR_buf text st d
    have hlen : (text.take p).length = p := by
      rw [List.length_take]
      omega
    have htake : st.buf.take d.start = text.take d.start := by
      rw [hbuf, List.take_append_of_le_length (by omega), List.take_take]
      congr 1
      omega
    have hdrop : st.buf.drop d.«end» = sliceList text d.«end» p ++ R := by
      rw [hbuf, List.drop_append_of_le_length (by omega), List.drop_take]
      rfl
    have hbufstep : (stepR text st d).buf =
        text.take d.start ++ (lbl ++ (sliceList text d.«end» p ++ R)) := by
      rw [hbuf1, htake, hdrop]
      simp [List.append_assoc]
    rw [List.foldl_cons]
    obtain ⟨hmono2, hpres2, hbuf2⟩ := ih d.start (stepR text st d)
      (lbl ++ (sliceList text d.«end» p ++ R)) hvd (by omega) hbufstep
    have hmfinal : ((ds.foldl (stepR text) (stepR text st d)).mappings
        (keyOf text d)) = some lbl := hmono2 _ _ hm1
    refine ⟨mapLE_trans hmono1 hmono2, ?_, ?_⟩
    · intro d' hd'
      rcases List.mem_cons.mp hd' with rfl | hd'
      · exact ⟨lbl, hmfinal⟩
      · exact hpres2 d' hd'
    · rw [hbuf2]
      simp only [redactDesc, hmfinal, Option.getD_some]
      simp [List.append_assoc]

/-! ### The loop invariant on counters, dictionary and records -/

theorem entry_shape_of_perType {st : AnonState}
    (h4 : ∀ ty, (st.entries.filter (fun en => decide (en.type = ty))).map
        (fun en => en.anonymized)
      = (List.range (st.counters ty)).map (fun i => placeholder ty (i + 1)))
    {en : MappingEntry} (hen : en ∈ st.entries) :
    ∃ m, 1 ≤ m ∧ m ≤ st.counters en.type ∧
      en.anonymized = placeholder en.type m := by
  have hmem : en ∈ st.entries.filter (fun x => decide (x.type = en.type)) :=
    List.mem_filter.mpr ⟨hen, by simp⟩
  have hmap : en.anonymized ∈
      (st.entries.filter (fun x => decide (x.type = en.type))).map
        (fun x => x.anonymized) :=
    List.mem_map.mpr ⟨en, hmem, rfl⟩
  rw [h4 en.type] at hmap
  obtain ⟨i, hi, hpl⟩ := List.mem_map.mp hmap
  rw [List.mem_range] at hi
  exact ⟨i + 1, by omega, by omega, hpl.symm⟩

theorem stInv_step (text : List Char) (st : AnonState) (e : Span)
    (h : StInv st) : StInv (stepR text st e) := by
  obtain ⟨h1, h2, h3, h4, h5⟩ := h
  simp only [stepR]
  split
  · exact ⟨h1, h2, h3, h4, h5⟩
  · rename_i hm
    constructor
    · -- every dictionary binding is documented by a record
      intro k v hv
      simp only at hv
      by_cases hk : k = (sliceList text e.start e.«end», e.entity_type)
      · subst hk
        rw [if_pos rfl] at hv
        refine ⟨⟨e.entity_type, sliceList text e.start e.«end»,
          placeholder e.entity_type (st.counters e.entity_type + 1)⟩,
          List.mem_append_right _ (List.mem_cons_self _ _), rfl, rfl, ?_⟩
        simpa using hv
      · rw [if_neg hk] at hv
        obtain ⟨en, hen, ho, ht, ha⟩ := h1 k v hv
        exact ⟨en, List.mem_append_left _ hen, ho, ht, ha⟩
    constructor
    · -- every record is in the dictionary
      intro en hen
      simp only
      rcases List.mem_append.mp hen with hold | hnew
      · have hkey : entryKey en ≠
            (sliceList text e.start e.«end», e.entity_type) := by
          intro hk
          have := h2 en hold
          rw [hk, hm] at this
          exact absurd this (by simp)
        rw [if_neg hkey]
        exact h2 en hold
      · simp only [List.mem_singleton] at hnew
        subst hnew
        simp [entryKey]
    constructor
    · -- record keys stay pairwise distinct
      have hnotin : (sliceList text e.start e.«end», e.entity_type) ∉
          st.entries.map entryKey := by
        intro hmem
        obtain ⟨en, hen, hkey⟩ := List.mem_map.mp hmem
        have := h2 en hen
        rw [hkey, hm] at this
        exact absurd this (by simp)
      simp only [List.map_append, List.map_cons, List.map_nil]
      rw [List.nodup_append]
      refine ⟨h3, by simp, ?_⟩
      intro a ha hb
      simp only [entryKey, List.mem_singleton] at hb
      subst hb
      exact hnotin ha
    constructor
    · -- per-type counter ranges
      intro ty
      simp only [List.filter_append, List.map_append]
      by_cases hty : ty = e.entity_type
      · subst hty
        have hnewf : List.filter (fun en => decide (en.type = e.entity_type))
            [(⟨e.entity_type, sliceList text e.start e.«end»,
              placeholder e.entity_type (st.counters e.entity_type + 1)⟩ :
                MappingEntry)] =
            [⟨e.entity_type, sliceList text e.start e.«end»,
              placeholder e.entity_type (st.counters e.entity_type + 1)⟩] := by
          simp
        rw [hnewf, if_pos rfl, List.range_succ, List.map_append,
          h4 e.entity_type]
        simp
      · have hty' : e.entity_type ≠ ty := fun hc => hty hc.symm
        have hnewf : List.filter (fun en => decide (en.type = ty))
            [(⟨e.entity_type, sliceList text e.start e.«end»,
              placeholder e.entity_type (st.counters e.entity_type + 1)⟩ :
                MappingEntry)] = [] := by
          simp [hty']
        rw [hnewf, if_neg hty, h4 ty]
        simp
    · -- placeholders stay pairwise distinct
      simp only [List.map_append, List.map_cons, List.map_nil]
      rw [List.nodup_append]
      refine ⟨h5, by simp, ?_⟩
      intro a ha hb
      simp only [List.mem_singleton] at hb
      subst hb
      obtain ⟨en, hen, hkey⟩ := List.mem_map.mp ha
      obtain ⟨m, hm1, hm2, hshape⟩ := entry_shape_of_perType h4 hen
      rw [hshape] at hkey
      obtain ⟨hty, hn⟩ := placeholder_inj hkey
      rw [hty] at hm2
      omega

theorem stInv_init (text : List Char) : StInv (initState text) := by
  refine ⟨?_, ?_, ?_, ?_, ?_⟩ <;> simp [initState]

theorem stInv_foldl (text : List Char) :
    ∀ (ds : List Span) (st : AnonState), StInv st →
      StInv (ds.foldl (stepR text) st) := by
  intro ds
  induction ds with
  | nil => exact fun st h => h
  | cons d ds ih => exact fun st h => ih _ (stInv_step text st d h)

theorem stepR_entries (text : List Char) (st : AnonState) (e : Span) :
    (stepR text st e).entries = st.entries ∨
    (stepR text st e).entries = st.entries ++
      [⟨e.entity_type, sliceList text e.start e.«end»,
        placeholder e.entity_type (st.counters e.entity_type + 1)⟩] := by
  simp only [stepR]
  split
  · exact Or.inl rfl
  · exact Or.inr rfl

theorem entries_provenance (text : List Char) :
    ∀ (ds : List Span) (st : AnonState) (en : MappingEntry),
      en ∈ (ds.foldl (stepR text) st).entries →
      en ∈ st.entries ∨ ∃ d ∈ ds,
        en.original = sliceList text d.start d.«end» ∧
        en.type = d.entity_type := by
  intro ds
  induction ds with
  | nil => exact fun st en h => Or.inl h
  | cons d ds ih =>
    intro st en h
    rw [List.foldl_cons] at h
    rcases ih (stepR text st d) en h with h' | ⟨d', hd', ho, ht⟩
    · rcases stepR_entries text st d with he | he
      · rw [he] at h'
        exact Or.inl h'
      · rw [he] at h'
        rcases List.mem_append.mp h' with h'' | h''
        · exact Or.inl h''
        · simp only [List.mem_singleton] at h''
          subst h''
          exact Or.inr ⟨d, List.mem_cons_self d ds, rfl, rfl⟩
    · exact Or.inr ⟨d', List.mem_cons_of_mem d hd', ho, ht⟩

theorem entries_keys_foldl (text : List Char) :
    ∀ (ds : List Span) (st : AnonState),
      ((ds.foldl (stepR text) st).entries).map entryKey =
        st.entries.map entryKey ++
          (firstDedup (ds.map (keyOf text))).filter
            (fun k => (st.mappings k).isNone) := by
  intro ds
  induction ds with
  | nil =>
    intro st
    simp [firstDedup]
  | cons d ds ih =>
    intro st
    rw [List.foldl_cons, List.map_cons]
    have hfd : firstDedup (keyOf text d :: ds.map (keyOf text)) =
        keyOf text d :: (firstDedup (ds.map (keyOf text))).filter
          (fun x => decide (x ≠ keyOf text d)) := rfl
    rw [hfd, ih (stepR text st d)]
    simp only [stepR, keyOf]
    split
    · rename_i lbl hm
      -- duplicate key: no record appended, dictionary unchanged
      simp only
      rw [List.filter_cons_of_neg (by simp [hm])]
      congr 1
      rw [List.filter_filter]
      apply List.filter_congr
      intro x _
      cases hx : (st.mappings x).isNone
      · simp
      · have hne : x ≠ (sliceList text d.start d.«end», d.entity_type) := by
          intro he
          rw [he, hm] at hx
          simp at hx
        simp [hx, hne]
    · rename_i hm
      -- fresh key: record appended, dictionary extended
      simp only [List.map_append, List.map_cons, List.map_nil, entryKey]
      rw [List.filter_cons_of_pos (by simp [hm])]
      rw [List.filter_filter]
      have hpt : (firstDedup (ds.map (keyOf text))).filter
          (fun k => ((fun k => if k =
            (sliceList text d.start d.«end», d.entity_type) then
              some (placeholder d.entity_type (st.counters d.entity_type + 1))
            else st.mappings k) k).isNone) =
          (firstDedup (ds.map (keyOf text))).filter
            (fun x => decide (x ≠ (sliceList text d.start d.«end»,
              d.entity_type)) && (st.mappings x).isNone) := by
        apply List.filter_congr
        intro x _
        by_cases hx : x = (sliceList text d.start d.«end», d.entity_type)
        · simp [hx]
        · simp [hx]
      rw [hpt]
      simp only [List.append_assoc, List.cons_append, List.nil_append]
      congr 2
      apply List.filter_congr
      intro x _
      exact Bool.and_comm _ _

/-! ### One reconstruction pass over a redacted buffer -/

theorem replaceAll_redactDesc (text : List Char) (f : Span → List Char)
    {pat : List Char} (hpat : IsToken pat) (k : MKey)
    (hNoOcc : NoOcc pat text) :
    ∀ (ds : List Span) (p : Nat), ValidDesc ds p →
      (∀ d ∈ ds, IsToken (f d)) →
      (∀ d ∈ ds, (f d = pat ↔ keyOf text d = k)) →
      replaceAll pat k.1 (redactDesc text f ds p) =
        redactDesc text f
          (ds.filter (fun d => decide (keyOf text d ≠ k))) p := by
  have hpatne : pat ≠ [] := hpat.ne_nil
  intro ds
  induction ds with
  | nil =>
    intro p _ _ _
    simp only [redactDesc, List.filter_nil]
    exact replaceAll_of_noOcc k.1 (noOcc_take hNoOcc p)
  | cons d ds ih =>
    intro p hv htok hiff
    obtain ⟨hde, hdse, hvd⟩ := hv
    have htokd := htok d (List.mem_cons_self d ds)
    have htok' : ∀ d' ∈ ds, IsToken (f d') :=
      fun d' hd' => htok d' (List.mem_cons_of_mem d hd')
    have hiff' : ∀ d' ∈ ds, (f d' = pat ↔ keyOf text d' = k) :=
      fun d' hd' => hiff d' (List.mem_cons_of_mem d hd')
    simp only [redactDesc]
    -- split at the boundary before the placeholder
    obtain ⟨w, hw, hwchars⟩ := htokd
    have hsplit1 : replaceAll pat k.1
        (redactDesc text f ds d.start ++ (f d ++ sliceList text d.«end» p)) =
        replaceAll pat k.1 (redactDesc text f ds d.start) ++
          replaceAll pat k.1 (f d ++ sliceList text d.«end» p) := by
      apply replaceAll_append_of_crossFree k.1 hpatne
        (redactDesc text f ds d.start).length _ _ le_rfl
      rw [hw, List.cons_append]
      exact crossFree_head_lt hpat _ _
    -- split at the boundary after the placeholder
    have hsplit2 : replaceAll pat k.1 (f d ++ sliceList text d.«end» p) =
        replaceAll pat k.1 (f d) ++
          replaceAll pat k.1 (sliceList text d.«end» p) := by
      apply replaceAll_append_of_crossFree k.1 hpatne (f d).length _ _ le_rfl
      exact crossFree_token hpat ⟨w, hw, hwchars⟩ _
    have hslice : replaceAll pat k.1 (sliceList text d.«end» p) =
        sliceList text d.«end» p :=
      replaceAll_of_noOcc k.1 (noOcc_slice hNoOcc _ _)
    rw [hsplit1, hsplit2, hslice, ih d.start hvd htok' hiff']
    by_cases hkey : keyOf text d = k
    · -- this span's splice is the pattern: it is restored to the slice
      have hfd : f d = pat := (hiff d (List.mem_cons_self d ds)).mpr hkey
      have hk1 : k.1 = sliceList text d.start d.«end» := by
        rw [← hkey]
        rfl
      rw [hfd, replaceAll_self k.1 hpatne,
        List.filter_cons_of_neg (by simp [hkey])]
      rw [redactDesc_glue text f _ d.start p
        (validDesc_filter _ ds d.start hvd) (by omega)]
      rw [← sliceList_concat (le_of_lt hdse) hde, hk1]
    · -- a different key: the splice is left untouched
      have hfd : f d ≠ pat := fun hc => hkey ((hiff d (List.mem_cons_self d ds)).mp hc)
      have hkeep : replaceAll pat k.1 (f d) = f d :=
        replaceAll_of_noOcc k.1
          (noOcc_token_ne hpat ⟨w, hw, hwchars⟩ (fun hc => hfd hc.symm))
      rw [hkeep, List.filter_cons_of_pos (by simp [hkey])]
      simp [redactDesc]

theorem substPasses_redactDesc (text : List Char) (f : Span → List Char) :
    ∀ (E : List MappingEntry) (ds : List Span) (p : Nat),
      ValidDesc ds p →
      (∀ d ∈ ds, IsToken (f d)) →
      (∀ en ∈ E, IsToken en.anonymized) →
      (∀ en ∈ E, NoOcc en.anonymized text) →
      (∀ en ∈ E, ∀ d ∈ ds, (f d = en.anonymized ↔ keyOf text d = entryKey en)) →
      substPasses E (redactDesc text f ds p) =
        redactDesc text f
          (ds.filter (fun d => decide (keyOf text d ∉ E.map entryKey))) p := by
  intro E
  induction E with
  | nil =>
    intro ds p _ _ _ _ _
    rw [substPasses, List.foldl_nil]
    congr 1
    exact (List.filter_eq_self.mpr (fun a _ => by simp)).symm
  | cons en E' ih =>
    intro ds p hv htok htokE hnoE hiff
    have hstep : substPasses (en :: E') (redactDesc text f ds p) =
        substPasses E'
          (replaceAll en.anonymized en.original (redactDesc text f ds p)) := by
      rw [substPasses, List.foldl_cons]
      rfl
    rw [hstep]
    have hcore := replaceAll_redactDesc text f
      (htokE en (List.mem_cons_self en E')) (entryKey en)
      (hnoE en (List.mem_cons_self en E')) ds p hv htok
      (fun d hd => hiff en (List.mem_cons_self en E') d hd)
    have hok1 : (entryKey en).1 = en.original := rfl
    rw [hok1] at hcore
    rw [hcore]
    rw [ih (ds.filter (fun d => decide (keyOf text d ≠ entryKey en))) p
      (validDesc_filter _ ds p hv)
      (fun d hd => htok d (List.mem_of_mem_filter hd))
      (fun e he => htokE e (List.mem_cons_of_mem en he))
      (fun e he => hnoE e (List.mem_cons_of_mem en he))
      (fun e he d hd => hiff e (List.mem_cons_of_mem en he) d
        (List.mem_of_mem_filter hd))]
    congr 1
    rw [List.filter_filter]
    apply List.filter_congr
    intro d _
    simp only [List.map_cons, List.mem_cons, not_or, Bool.and_comm]
    by_cases h1 : keyOf text d = entryKey en
    · simp [h1]
    · by_cases h2 : keyOf text d ∈ E'.map entryKey
      · simp [h1, h2]
      · simp [h1, h2]

theorem noOverlap_symm : ∀ {a b : Span}, NoOverlap a b → NoOverlap b a :=
  fun h hc => h ⟨hc.2, hc.1⟩

/-! ### The backslash-free fast path of the replacement template -/

theorem parseTemplateAux_no_backslash :
    ∀ (repl : List Char) (fuel : Nat), repl.length ≤ fuel → '\\' ∉ repl →
      parseTemplateAux fuel repl = some (repl.map TemplItem.lit) := by
  intro repl
  induction repl with
  | nil =>
    intro fuel _ _
    cases fuel <;> rfl
  | cons c cs ih =>
    intro fuel hf h
    cases fuel with
    | zero => simp at hf
    | succ fuel =>
      have hc : c ≠ '\\' := fun he => h (he ▸ List.mem_cons_self c cs)
      simp only [parseTemplateAux, if_neg hc]
      rw [ih fuel (by simp only [List.length_cons] at hf; omega)
        (fun hm => h (List.mem_cons_of_mem c hm))]
      rfl

theorem parseTemplate_no_backslash {repl : List Char} (h : '\\' ∉ repl) :
    parseTemplate repl = some (repl.map TemplItem.lit) :=
  parseTemplateAux_no_backslash repl repl.length le_rfl h

theorem expandTemplate_lits (m : List Char) :
    ∀ l : List Char, expandTemplate m (l.map TemplItem.lit) = l := by
  intro l
  induction l with
  | nil => rfl
  | cons c cs ih => simp only [List.map_cons, expandTemplate, ih]

theorem pyReSub_no_backslash (pat : List Char) {repl : List Char}
    (h : '\\' ∉ repl) (s : List Char) :
    pyReSub pat repl s = some (replaceAll pat repl s) := by
  rw [pyReSub, parseTemplate_no_backslash h]
  show some (replaceAll pat (expandTemplate pat (repl.map TemplItem.lit)) s) = _
  rw [expandTemplate_lits pat repl]

theorem reconstructCore_cons (en : MappingEntry) (E : List MappingEntry)
    (s : List Char) (h : '\\' ∉ en.original) :
    reconstructCore (en :: E) s =
      reconstructCore E (replaceAll en.anonymized en.original s) := by
  rw [reconstructCore, List.foldl_cons]
  show List.foldl (fun b it => b.bind (pyReSub it.anonymized it.original))
      (pyReSub en.anonymized en.original s) E = _
  rw [pyReSub_no_backslash _ h s]
  rfl

/-- When no original value contains a backslash, every `re.sub` pass
takes the literal fast path and the loop computes the pure
substitution cascade. -/
theorem reconstructCore_eq_substPasses :
    ∀ (mapping : List MappingEntry) (s : List Char),
      (∀ en ∈ mapping, '\\' ∉ en.original) →
      reconstructCore mapping s = some (substPasses mapping s) := by
  intro mapping
  induction mapping with
  | nil => intro s _; rfl
  | cons en E ih =>
    intro s h
    rw [reconstructCore_cons en E s (h en (List.mem_cons_self en E))]
    rw [ih _ (fun e he => h e (List.mem_cons_of_mem en he))]
    rfl

/-- C1 (amended): the round-trip law, in the form the code satisfies.
For every ASCII text and every set of valid non-overlapping detected
spans whose entity types are nonempty word-character strings, provided
the original text contains no token matching the placeholder shape
(the cleanup regex matches nowhere in it) and no detected span's text
contains a backslash (so that no replacement-template processing of
`re.sub` can transform an original or raise `re.error`), reconstructing
the redacted text with the mapping produced by the same redaction call
succeeds and yields the original text exactly. -/
theorem anonymize_reconstruct_roundtrip (text : List Char)
    (spans : List Span)
    (hascii : asciiOnly text = true)
    (hval : ∀ e ∈ spans, e.start < e.«end» ∧ e.«end» ≤ text.length)
    (hnov : spans.Pairwise NoOverlap)
    (hty : ∀ e ∈ spans, e.entity_type ≠ [] ∧
      ∀ c ∈ e.entity_type, isWordChar c = true)
    (htf : hasPH text = false)
    (hbs : ∀ e ∈ spans, '\\' ∉ sliceList text e.start e.«end») :
    reconstruct (anonymize_text text spans).1 (anonymize_text text spans).2 =
      some text := by
  have hperm := sortDesc_perm spans
  have hsorted := sortDesc_sorted spans
  have hmem : ∀ e ∈ sortDesc spans, e ∈ spans := fun e he => hperm.mem_iff.mp he
  have hvd : ValidDesc (sortDesc spans) text.length :=
    validDesc_of_sorted_nonoverlap _ _ hsorted
      ((hperm.pairwise_iff (fun hab => noOverlap_symm hab)).mpr hnov)
      (fun e he => (hval e (hmem e he)).1)
      (fun e he => (hval e (hmem e he)).2)
  have hbuf0 : (initState text).buf = text.take text.length ++ [] := by
    simp [initState]
  obtain ⟨hmono, hpres, hbuf⟩ := foldl_stepR text (sortDesc spans) text.length
    (initState text) [] hvd le_rfl hbuf0
  obtain ⟨h1, h2, h3, h4, h5⟩ :=
    stInv_foldl text (sortDesc spans) (initState text) (stInv_init text)
  have hprov : ∀ en ∈ ((sortDesc spans).foldl (stepR text)
      (initState text)).entries,
      en.type ≠ [] ∧ ∀ c ∈ en.type, isWordChar c = true := by
    intro en hen
    rcases entries_provenance text _ (initState text) en hen with
      h | ⟨d, hd, ho, ht⟩
    · simp [initState] at h
    · rw [ht]
      exact hty d (hmem d hd)
  have htokE : ∀ en ∈ ((sortDesc spans).foldl (stepR text)
      (initState text)).entries, IsToken en.anonymized := by
    intro en hen
    obtain ⟨m, hm1, hm2, hsh⟩ := entry_shape_of_perType h4 hen
    rw [hsh]
    exact placeholder_isToken m (hprov en hen).2
  have hnoE : ∀ en ∈ ((sortDesc spans).foldl (stepR text)
      (initState text)).entries, NoOcc en.anonymized text := by
    intro en hen
    obtain ⟨m, hm1, hm2, hsh⟩ := entry_shape_of_perType h4 hen
    rw [hsh]
    exact noOcc_of_hasPH_false htf (hprov en hen).1 (hprov en hen).2
  have hfd_tok : ∀ d ∈ sortDesc spans,
      IsToken ((((sortDesc spans).foldl (stepR text)
        (initState text)).mappings (keyOf text d)).getD []) := by
    intro d hd
    obtain ⟨v, hv⟩ := hpres d hd
    obtain ⟨en, hen, ho, ht2, ha⟩ := h1 _ v hv
    rw [hv, Option.getD_some, ← ha]
    exact htokE en hen
  have hiff : ∀ en ∈ ((sortDesc spans).foldl (stepR text)
      (initState text)).entries, ∀ d ∈ sortDesc spans,
      ((((sortDesc spans).foldl (stepR text)
        (initState text)).mappings (keyOf text d)).getD [] = en.anonymized ↔
        keyOf text d = entryKey en) := by
    intro en hen d hd
    constructor
    · intro heq
      obtain ⟨v, hv⟩ := hpres d hd
      rw [hv, Option.getD_some] at heq
      obtain ⟨en', hen', ho, ht2, ha⟩ := h1 _ v hv
      have hk : entryKey en' = keyOf text d := by
        rw [entryKey, ho, ht2]
      have hee : en' = en :=
        List.inj_on_of_nodup_map h5 hen' hen (by rw [ha, heq])
      rw [← hee, hk]
    · intro heq
      rw [heq, h2 en hen, Option.getD_some]
  have hkeys : ∀ d ∈ sortDesc spans, keyOf text d ∈
      (((sortDesc spans).foldl (stepR text) (initState text)).entries).map
        entryKey := by
    intro d hd
    obtain ⟨v, hv⟩ := hpres d hd
    obtain ⟨en, hen, ho, ht2, ha⟩ := h1 _ v hv
    refine List.mem_map.mpr ⟨en, hen, ?_⟩
    rw [entryKey, ho, ht2]
  have hbsE : ∀ en ∈ ((sortDesc spans).foldl (stepR text)
      (initState text)).entries, '\\' ∉ en.original := by
    intro en hen
    rcases entries_provenance text _ (initState text) en hen with
      h | ⟨d, hd, ho, ht⟩
    · simp [initState] at h
    · rw [ho]
      exact hbs d (hmem d hd)
  show reconstruct (((sortDesc spans).foldl (stepR text) (initState text)).buf)
    (((sortDesc spans).foldl (stepR text) (initState text)).entries) =
      some text
  rw [reconstruct, hbuf, List.append_nil]
  rw [reconstructCore_eq_substPasses _ _ hbsE]
  show some (stripPH (substPasses _ _)) = some text
  congr 1
  rw [substPasses_redactDesc text _ _ (sortDesc spans) text.length hvd
    hfd_tok htokE hnoE hiff]
  rw [List.filter_eq_nil_iff.mpr (fun d hd => by simp [hkeys d hd])]
  rw [redactDesc, List.take_length]
  exact stripPH_of_hasPH_false htf

theorem count_filter_eq_one_of_nodup_map {α β : Type} [DecidableEq β]
    (f : α → β) :
    ∀ (l : List α) (x : β), (l.map f).Nodup → x ∈ l.map f →
      (l.filter (fun e => decide (f e = x))).length = 1 := by
  intro l
  induction l with
  | nil => intro x _ hx; simp at hx
  | cons a l ih =>
    intro x hnd hx
    rw [List.map_cons, List.nodup_cons] at hnd
    by_cases ha : f a = x
    · rw [List.filter_cons_of_pos (by simp [ha])]
      have hnone : l.filter (fun e => decide (f e = x)) = [] := by
        apply List.filter_eq_nil_iff.mpr
        intro e he hfe
        apply hnd.1
        rw [ha]
        simp only [decide_eq_true_eq] at hfe
        exact hfe ▸ List.mem_map.mpr ⟨e, he, rfl⟩
      rw [hnone]
      rfl
    · rw [List.filter_cons_of_neg (by simp [ha])]
      apply ih x hnd.2
      rcases List.mem_map.mp hx with ⟨e, he, hfe⟩
      rcases List.mem_cons.mp he with rfl | he'
      · exact absurd hfe ha
      · exact List.mem_map.mpr ⟨e, he', hfe⟩

/-! ## Claim theorems -/

/-- C1 counterexample: the round-trip law as stated fails when the
original text itself contains a placeholder-shaped token.  With no
detections at all (a trivially valid non-overlapping span set), the
cleanup pass strips the literal token from the text, so reconstruction
does not return the original text. -/
theorem c1_strips_token_text_counterexample :
    reconstruct (anonymize_text "<A_1>".toList []).1
      (anonymize_text "<A_1>".toList []).2 ≠ some ("<A_1>".toList) := by
  decide

/-- C1 witness: the round-trip theorem applied to the concrete
example text with two valid non-overlapping detections. -/
theorem c1_roundtrip_witness :
    asciiOnly "Contact John Doe at 555-1234.".toList = true ∧
    (∀ e ∈ ([⟨"PERSON".toList, 8, 16, 9/10⟩,
        ⟨"PHONE".toList, 20, 28, 85/100⟩] : List Span),
      e.start < e.«end» ∧
        e.«end» ≤ ("Contact John Doe at 555-1234.".toList).length) ∧
    ([⟨"PERSON".toList, 8, 16, 9/10⟩,
        ⟨"PHONE".toList, 20, 28, 85/100⟩] : List Span).Pairwise NoOverlap ∧
    hasPH "Contact John Doe at 555-1234.".toList = false ∧
    (∀ e ∈ ([⟨"PERSON".toList, 8, 16, 9/10⟩,
        ⟨"PHONE".toList, 20, 28, 85/100⟩] : List Span),
      '\\' ∉ sliceList "Contact John Doe at 555-1234.".toList
        e.start e.«end») ∧
    reconstruct
      (anonymize_text "Contact John Doe at 555-1234.".toList
        [⟨"PERSON".toList, 8, 16, 9/10⟩, ⟨"PHONE".toList, 20, 28, 85/100⟩]).1
      (anonymize_text "Contact John Doe at 555-1234.".toList
        [⟨"PERSON".toList, 8, 16, 9/10⟩, ⟨"PHONE".toList, 20, 28, 85/100⟩]).2 =
      some ("Contact John Doe at 555-1234.".toList) :=
  ⟨by decide, by decide, by decide, by decide, by decide,
    anonymize_reconstruct_roundtrip _ _ (by decide) (by decide) (by decide)
      (by decide) (by decide) (by decide)⟩

/-- C2 counterexample: a span whose `end` exceeds the text length is
not rejected.  The call performs a substitution (the result differs
from the input and a mapping entry is emitted), with the span silently
clamped by Python slicing semantics, instead of failing fast with an
invalid-input error and applying no substitution. -/
theorem c2_out_of_range_counterexample :
    (("ab".toList).length < 5) ∧
    (anonymize_text "ab".toList [⟨"PER".toList, 0, 5, 1⟩]).1 =
      "<PER_1>".toList ∧
    (anonymize_text "ab".toList [⟨"PER".toList, 0, 5, 1⟩]).1 ≠ "ab".toList ∧
    (anonymize_text "ab".toList [⟨"PER".toList, 0, 5, 1⟩]).2 ≠ [] := by
  decide

/-- C2 (amended): the code performs no bounds validation at all.  For
every text and every single span — in range or not — the substitution
proceeds, with the extracted original and the spliced region clamped
to the text's bounds by Python slicing semantics; no error is ever
raised and the result is an ordinary redaction result. -/
theorem c2_out_of_range_clamped (text : List Char) (sp : Span) :
    anonymize_text text [sp] =
      (text.take sp.start ++ placeholder sp.entity_type 1 ++
        text.drop sp.«end»,
       [⟨sp.entity_type, sliceList text sp.start sp.«end»,
         placeholder sp.entity_type 1⟩]) := rfl

/-- C3 (confirmed): when the span set contains two or more spans with
the same literal original text and the same entity type, the returned
mapping contains exactly one record for that key, and the redacted
buffer is exactly the per-key substitution of the processed spans —
every span's splice is the single placeholder assigned to its key, so
all occurrences of a duplicated key receive the identical placeholder
string. -/
theorem c3_duplicate_key_single_entry (text : List Char)
    (spans : List Span)
    (hval : ∀ e ∈ spans, e.start < e.«end» ∧ e.«end» ≤ text.length)
    (hnov : spans.Pairwise NoOverlap)
    (s₁ s₂ : Span) (h₁ : s₁ ∈ spans) (h₂ : s₂ ∈ spans) (hne : s₁ ≠ s₂)
    (hkey : keyOf text s₁ = keyOf text s₂) :
    ((anonymize_text text spans).2.filter
      (fun en => decide (entryKey en = keyOf text s₁))).length = 1 ∧
    (anonymize_text text spans).1 =
      redactDesc text
        (fun d => (((anonState text spans).mappings (keyOf text d)).getD []))
        (sortDesc spans) text.length := by
  have hperm := sortDesc_perm spans
  have hmem : ∀ e ∈ sortDesc spans, e ∈ spans := fun e he => hperm.mem_iff.mp he
  have hvd : ValidDesc (sortDesc spans) text.length :=
    validDesc_of_sorted_nonoverlap _ _ (sortDesc_sorted spans)
      ((hperm.pairwise_iff (fun hab => noOverlap_symm hab)).mpr hnov)
      (fun e he => (hval e (hmem e he)).1)
      (fun e he => (hval e (hmem e he)).2)
  obtain ⟨hmono, hpres, hbuf⟩ := foldl_stepR text (sortDesc spans) text.length
    (initState text) [] hvd le_rfl (by simp [initState])
  obtain ⟨h1, h2, h3, h4, h5⟩ :=
    stInv_foldl text (sortDesc spans) (initState text) (stInv_init text)
  constructor
  · obtain ⟨v, hv⟩ := hpres s₁ (hperm.mem_iff.mpr h₁)
    obtain ⟨en, hen, ho, ht2, ha⟩ := h1 _ v hv
    have hkmem : keyOf text s₁ ∈
        (((sortDesc spans).foldl (stepR text) (initState text)).entries).map
          entryKey := List.mem_map.mpr ⟨en, hen, by rw [entryKey, ho, ht2]⟩
    exact count_filter_eq_one_of_nodup_map entryKey _ _ h3 hkmem
  · show ((sortDesc spans).foldl (stepR text) (initState text)).buf = _
    rw [hbuf, List.append_nil]
    rfl

/-- C3 witness: a text with the same literal value and type detected
twice yields exactly one mapping record and a per-key substituted
buffer. -/
theorem c3_duplicate_key_witness :
    (∀ e ∈ ([⟨"PER".toList, 0, 2, 1⟩, ⟨"PER".toList, 3, 5, 1⟩] : List Span),
      e.start < e.«end» ∧ e.«end» ≤ ("ab ab".toList).length) ∧
    ([⟨"PER".toList, 0, 2, 1⟩, ⟨"PER".toList, 3, 5, 1⟩] :
      List Span).Pairwise NoOverlap ∧
    keyOf "ab ab".toList ⟨"PER".toList, 0, 2, 1⟩ =
      keyOf "ab ab".toList ⟨"PER".toList, 3, 5, 1⟩ ∧
    ((anonymize_text "ab ab".toList
        [⟨"PER".toList, 0, 2, 1⟩, ⟨"PER".toList, 3, 5, 1⟩]).2.filter
      (fun en => decide (entryKey en =
        keyOf "ab ab".toList ⟨"PER".toList, 0, 2, 1⟩))).length = 1 ∧
    (anonymize_text "ab ab".toList
        [⟨"PER".toList, 0, 2, 1⟩, ⟨"PER".toList, 3, 5, 1⟩]).1 =
      redactDesc "ab ab".toList
        (fun d => (((anonState "ab ab".toList
          [⟨"PER".toList, 0, 2, 1⟩, ⟨"PER".toList, 3, 5, 1⟩]).mappings
            (keyOf "ab ab".toList d)).getD []))
        (sortDesc [⟨"PER".toList, 0, 2, 1⟩, ⟨"PER".toList, 3, 5, 1⟩])
        ("ab ab".toList).length :=
  ⟨by decide, by decide, by decide,
    (c3_duplicate_key_single_entry _ _ (by decide) (by decide)
      ⟨"PER".toList, 0, 2, 1⟩ ⟨"PER".toList, 3, 5, 1⟩
      (by decide) (by decide) (by decide) (by decide)).1,
    (c3_duplicate_key_single_entry _ _ (by decide) (by decide)
      ⟨"PER".toList, 0, 2, 1⟩ ⟨"PER".toList, 3, 5, 1⟩
      (by decide) (by decide) (by decide) (by decide)).2⟩

/-- C4 (confirmed): the substitution loop iterates the analyzer output
sorted by start offset descending (a permutation of the input,
pairwise descending).  The emitted mapping records are exactly the
first occurrences, in processing order, of the distinct
(original, type) keys of the processed spans, and within each entity
type the placeholders embed the counters 1, 2, 3, ... in record order
— so counter assignment follows back-to-front first-encounter order,
the reverse of left-to-right appearance. -/
theorem c4_counter_assignment_order (text : List Char) (spans : List Span) :
    (substitutedSpans spans).Pairwise (fun a b => b.start ≤ a.start) ∧
    (substitutedSpans spans).Perm spans ∧
    ((anonymize_text text spans).2).map entryKey =
      firstDedup ((substitutedSpans spans).map (keyOf text)) ∧
    ∀ ty, ((anonymize_text text spans).2.filter
        (fun en => decide (en.type = ty))).map (fun en => en.anonymized) =
      (List.range ((anonymize_text text spans).2.filter
        (fun en => decide (en.type = ty))).length).map
          (fun i => placeholder ty (i + 1)) := by
  refine ⟨sortDesc_sorted spans, sortDesc_perm spans, ?_, ?_⟩
  · show (((sortDesc spans).foldl (stepR text) (initState text)).entries).map
      entryKey = firstDedup ((sortDesc spans).map (keyOf text))
    rw [entries_keys_foldl text (sortDesc spans) (initState text)]
    simp only [initState, List.map_nil, List.nil_append]
    exact List.filter_eq_self.mpr (fun a _ => by simp)
  · intro ty
    obtain ⟨h1, h2, h3, h4, h5⟩ :=
      stInv_foldl text (sortDesc spans) (initState text) (stInv_init text)
    have h4t := h4 ty
    have hlen : (((sortDesc spans).foldl (stepR text)
        (initState text)).entries.filter
          (fun en => decide (en.type = ty))).length =
        ((sortDesc spans).foldl (stepR text) (initState text)).counters ty := by
      have := congrArg List.length h4t
      simpa using this
    show (((sortDesc spans).foldl (stepR text) (initState text)).entries.filter
        (fun en => decide (en.type = ty))).map (fun en => en.anonymized) =
      (List.range ((((sortDesc spans).foldl (stepR text)
        (initState text)).entries.filter
          (fun en => decide (en.type = ty))).length)).map
            (fun i => placeholder ty (i + 1))
    rw [h4t, hlen]

/-- C5 counterexample: reconstruction does not always succeed without
raising an error.  For a mapping whose only entry records the original
value backslash-1, `re.sub` escape-processes the replacement and
raises `re.error: invalid group reference` (the escaped-literal
pattern has no groups), modelled by `none`; the claimed stripped
output is not produced. -/
theorem c5_backslash_error_counterexample :
    reconstruct "Hello <PERSON_1>, your code is <PERSON_99>".toList
      [⟨"PERSON".toList, "\\1".toList, "<PERSON_1>".toList⟩] = none ∧
    reconstruct "Hello <PERSON_1>, your code is <PERSON_99>".toList
      [⟨"PERSON".toList, "\\1".toList, "<PERSON_1>".toList⟩] ≠
      some (("Hello ".toList ++ "\\1".toList) ++ ", your code is ".toList) := by
  decide

/-- C5 (amended): reconstructing the example text against a mapping
containing only the `PERSON_1` placeholder substitutes the recorded
original for `<PERSON_1>` and strips the hallucinated `<PERSON_99>`
token to the empty string without error, for every original value
that contains no opening angle bracket and no backslash (a backslash
would trigger replacement-template processing, which can raise). -/
theorem c5_hallucinated_token_stripped (orig : List Char)
    (hlt : '<' ∉ orig) (hbs : '\\' ∉ orig) :
    reconstruct "Hello <PERSON_1>, your code is <PERSON_99>".toList
      [⟨"PERSON".toList, orig, "<PERSON_1>".toList⟩] =
      some ("Hello ".toList ++ orig ++ ", your code is ".toList) := by
  have hpat : IsToken "<PERSON_1>".toList :=
    ⟨"PERSON_1".toList, by decide, by decide⟩
  have hpatne : "<PERSON_1>".toList ≠ [] := by decide
  have hsplitT : "Hello <PERSON_1>, your code is <PERSON_99>".toList =
      "Hello ".toList ++ ("<PERSON_1>".toList ++
        ", your code is <PERSON_99>".toList) := by decide
  have hcore : reconstructCore
      [⟨"PERSON".toList, orig, "<PERSON_1>".toList⟩]
      "Hello <PERSON_1>, your code is <PERSON_99>".toList =
      some (replaceAll "<PERSON_1>".toList orig
        "Hello <PERSON_1>, your code is <PERSON_99>".toList) :=
    reconstructCore_eq_substPasses _ _ (by
      intro en hen
      simp only [List.mem_singleton] at hen
      subst hen
      exact hbs)
  rw [reconstruct, hcore]
  show some (stripPH (replaceAll "<PERSON_1>".toList orig
    "Hello <PERSON_1>, your code is <PERSON_99>".toList)) = _
  congr 1
  rw [hsplitT]
  rw [replaceAll_append_of_crossFree orig hpatne ("Hello ".toList).length _ _
    le_rfl (crossFree_of_no_lt hpat (by decide) _)]
  rw [replaceAll_of_noOcc orig (noOcc_of_no_lt hpat (by decide))]
  rw [replaceAll_append_pat orig _ hpatne]
  rw [replaceAll_of_noOcc orig (noOcc_of_hasOcc_false (by decide))]
  have hre : "Hello ".toList ++ (orig ++ ", your code is <PERSON_99>".toList) =
      ("Hello ".toList ++ orig) ++ ", your code is <PERSON_99>".toList := by
    simp [List.append_assoc]
  rw [hre, stripPH_append_no_lt (by
    intro hmem
    rcases List.mem_append.mp hmem with h | h
    · revert h
      decide
    · exact hlt h)]
  have hstrip : stripPH ", your code is <PERSON_99>".toList =
      ", your code is ".toList := by decide
  rw [hstrip]

/-- C5 witness: the stripping theorem applied to a concrete original
value. -/
theorem c5_hallucinated_token_witness :
    ('<' ∉ "Alice".toList) ∧ ('\\' ∉ "Alice".toList) ∧
    reconstruct "Hello <PERSON_1>, your code is <PERSON_99>".toList
      [⟨"PERSON".toList, "Alice".toList, "<PERSON_1>".toList⟩] =
      some ("Hello ".toList ++ "Alice".toList ++ ", your code is ".toList) :=
  ⟨by decide, by decide,
    c5_hallucinated_token_stripped "Alice".toList (by decide) (by decide)⟩

/-- C6 counterexample: the engine performs no overlap resolution.  For
an input containing two overlapping spans, the sequence it actually
substitutes (the sorted analyzer output) still contains both, so the
pairwise non-overlap property fails. -/
theorem c6_overlap_passthrough_counterexample :
    ¬ (substitutedSpans [⟨"A".toList, 0, 5, 1⟩,
        ⟨"B".toList, 3, 8, 1⟩]).Pairwise NoOverlap := by
  decide

/-- C6 (amended): the engine substitutes every span the analyzer
returned — the substituted sequence is a permutation of the input,
sorted by start descending, with no overlap resolution performed; it
is pairwise non-overlapping exactly when the input already was. -/
theorem c6_no_overlap_resolution (spans : List Span) :
    (substitutedSpans spans).Perm spans ∧
    (substitutedSpans spans).Pairwise (fun a b => b.start ≤ a.start) ∧
    (spans.Pairwise NoOverlap →
      (substitutedSpans spans).Pairwise NoOverlap) :=
  ⟨sortDesc_perm spans, sortDesc_sorted spans,
    fun h => ((sortDesc_perm spans).pairwise_iff
      (fun hab => noOverlap_symm hab)).mpr h⟩

/-- C6 witness: the amended theorem applied to a concrete
non-overlapping input. -/
theorem c6_no_overlap_resolution_witness :
    (substitutedSpans [⟨"PERSON".toList, 8, 16, 9/10⟩,
        ⟨"PHONE".toList, 20, 28, 85/100⟩]).Perm
      [⟨"PERSON".toList, 8, 16, 9/10⟩, ⟨"PHONE".toList, 20, 28, 85/100⟩] ∧
    (substitutedSpans [⟨"PERSON".toList, 8, 16, 9/10⟩,
        ⟨"PHONE".toList, 20, 28, 85/100⟩]).Pairwise NoOverlap :=
  ⟨(c6_no_overlap_resolution _).1,
    (c6_no_overlap_resolution _).2.2 (by decide)⟩

/-- C7 counterexample: on the example input the mapping sequence is
not `[PERSON, PHONE]` — records are appended in back-to-front
processing order, so PHONE comes first. -/
theorem c7_mapping_order_counterexample :
    (anonymize_text "Contact John Doe at 555-1234.".toList
      [⟨"PERSON".toList, 8, 16, 9/10⟩, ⟨"PHONE".toList, 20, 28, 85/100⟩]).2 ≠
      [⟨"PERSON".toList, "John Doe".toList, "<PERSON_1>".toList⟩,
       ⟨"PHONE".toList, "555-1234".toList, "<PHONE_1>".toList⟩] := by
  decide

/-- C7 (amended): the example end-to-end, with the mapping in the
order the code produces (PHONE first, then PERSON — back-to-front
processing order): the redacted text and both records are exactly as
claimed, and reconstruction with that mapping restores the original
text exactly. -/
theorem c7_example_end_to_end :
    anonymize_text "Contact John Doe at 555-1234.".toList
      [⟨"PERSON".toList, 8, 16, 9/10⟩, ⟨"PHONE".toList, 20, 28, 85/100⟩] =
      ("Contact <PERSON_1> at <PHONE_1>.".toList,
        [⟨"PHONE".toList, "555-1234".toList, "<PHONE_1>".toList⟩,
         ⟨"PERSON".toList, "John Doe".toList, "<PERSON_1>".toList⟩]) ∧
    reconstruct "Contact <PERSON_1> at <PHONE_1>.".toList
      [⟨"PHONE".toList, "555-1234".toList, "<PHONE_1>".toList⟩,
       ⟨"PERSON".toList, "John Doe".toList, "<PERSON_1>".toList⟩] =
      some ("Contact John Doe at 555-1234.".toList) := by
  decide

/-- C8 counterexample: a later entry's pass does re-substitute inside
the text produced by an earlier entry's substitution.  After the first
entry restores its original `<LOC_1>`, the second entry's pass
replaces that restored text with `b`. -/
theorem c8_rescan_counterexample :
    reconstructCore [⟨"PER".toList, "<LOC_1>".toList, "<PER_1>".toList⟩]
        "<PER_1>".toList = some ("<LOC_1>".toList) ∧
    reconstructCore [⟨"PER".toList, "<LOC_1>".toList, "<PER_1>".toList⟩,
        ⟨"LOC".toList, "b".toList, "<LOC_1>".toList⟩]
        "<PER_1>".toList = some ("b".toList) ∧
    ("b".toList : List Char) ≠ "<LOC_1>".toList := by
  decide

/-- C8 (amended): reconstruction performs one replace-all pass per
mapping entry, and within a single pass the text just substituted in
is never re-scanned: when the original contains no backslash (so the
pass takes the literal fast path of `re.sub`), the pass splices the
original and continues strictly after it.  (A later entry's pass,
however, scans the whole buffer again, including regions produced by
earlier entries.) -/
theorem c8_single_pass_per_entry (en : MappingEntry) (s : List Char)
    (h : en.anonymized ≠ []) (hbs : '\\' ∉ en.original) :
    reconstructCore [en] (en.anonymized ++ s) =
      (reconstructCore [en] s).map (fun r => en.original ++ r) := by
  have h1 := reconstructCore_eq_substPasses [en] (en.anonymized ++ s)
    (by intro e he; simp only [List.mem_singleton] at he; subst he; exact hbs)
  have h2 := reconstructCore_eq_substPasses [en] s
    (by intro e he; simp only [List.mem_singleton] at he; subst he; exact hbs)
  rw [h1, h2]
  show some (replaceAll en.anonymized en.original (en.anonymized ++ s)) = _
  rw [replaceAll_append_pat en.original s h]
  rfl

/-- C8 witness: the single-pass property at a concrete entry whose
original value itself contains the placeholder. -/
theorem c8_single_pass_witness :
    (("<A_1>".toList : List Char) ≠ []) ∧
    ('\\' ∉ "x<A_1>x".toList) ∧
    reconstructCore [⟨"A".toList, "x<A_1>x".toList, "<A_1>".toList⟩]
        ("<A_1>".toList ++ "y".toList) =
      (reconstructCore [⟨"A".toList, "x<A_1>x".toList, "<A_1>".toList⟩]
          "y".toList).map (fun r => "x<A_1>x".toList ++ r) :=
  ⟨by decide, by decide, c8_single_pass_per_entry
    ⟨"A".toList, "x<A_1>x".toList, "<A_1>".toList⟩ "y".toList
    (by decide) (by decide)⟩

/-- C9 (confirmed): when the detector analysis yields zero entities,
`anonymize_text` returns the input text unchanged together with an
empty mapping list. -/
theorem c9_no_entities_identity (text : List Char) :
    anonymize_text text [] = (text, []) := rfl

/-- C10 (confirmed): within one call, the placeholder strings of the
returned mapping records are pairwise distinct: each new key of a type
receives a strictly larger per-type counter than every earlier key of
that type, and placeholders of different types or counters are
distinct strings. -/
theorem c10_placeholders_pairwise_distinct (text : List Char)
    (spans : List Span) :
    ((anonymize_text text spans).2.map (fun en => en.anonymized)).Nodup :=
  (stInv_foldl text (sortDesc spans) (initState text) (stInv_init text)).2.2.2.2
